import Mathlib

/-!
Verification development for the OBR macroeconomic model emulator
(PolicyEngine/obr-macroeconomic-model).

Shallow embedding conventions:

* IEEE float64 values are modelled by `Val K`: either a finite number in a
  linear ordered field `K`, or `Val.nan` (the not-available sentinel).
  Infinities and float rounding are outside the model; `np.isfinite` becomes
  `Val.isfinite`, and arithmetic propagates `nan`.  Division by zero and
  log of a non-positive number produce `nan` (numpy produces `inf`/`nan`
  non-finite values there; the model collapses all non-finite results to
  `nan`).  The transcendental functions `np.log` / `np.exp` are abstract
  functions `klog kexp : K → K`: no claim depends on their analytic
  properties, only on where the code applies them.
* Python dictionaries keyed by variable name are modelled as functions
  `String → _`; `try/except` around an equation evaluation is modelled by the
  evaluator returning `Option` (`none` = an exception was raised).
* Quarterly period labels "YYYYQn" are modelled by their absolute quarter
  number `year * 4 + (quarter - 1) : Int`.  The modelled label syntax is the
  canonical `YYYYQn` form; other spellings accepted by `pandas.Period` are
  out of scope.
-/

deriving instance DecidableEq for Except

/-- A numpy float64 scalar: a finite value of `K` or NaN (see the header). -/
inductive Val (K : Type) where
  | num : K → Val K
  | nan : Val K
deriving DecidableEq

namespace Val

variable {K : Type} [LinearOrderedField K]

/-- `np.isfinite`. -/
def isfinite : Val K → Bool
  | num _ => true
  | nan => false

/-- The finite value carried, with a junk default for NaN (always used under
an `isfinite` guard). -/
def toRd : Val K → K
  | num x => x
  | nan => 0

/-- numpy `!= 0` test on the finite part (NaN compares unequal to 0). -/
def eqz : Val K → Bool
  | num x => decide (x = 0)
  | nan => false

def add : Val K → Val K → Val K
  | num a, num b => num (a + b)
  | _, _ => nan

def sub : Val K → Val K → Val K
  | num a, num b => num (a - b)
  | _, _ => nan

def mul : Val K → Val K → Val K
  | num a, num b => num (a * b)
  | _, _ => nan

/-- Division; a zero divisor yields a non-finite result, modelled as NaN. -/
def div : Val K → Val K → Val K
  | num a, num b => if b = 0 then nan else num (a / b)
  | _, _ => nan

def neg : Val K → Val K
  | num a => num (-a)
  | nan => nan

/-- Add a plain (finite) float to a value, as in `new_val += residual`. -/
def addK (v : Val K) (r : K) : Val K :=
  match v with
  | num a => num (a + r)
  | nan => nan

/-- `np.log`, via the abstract `klog`; non-positive arguments give a
non-finite result, modelled as NaN. -/
def logV (klog : K → K) : Val K → Val K
  | num a => if 0 < a then num (klog a) else nan
  | nan => nan

/-- `np.exp`, via the abstract `kexp`. -/
def expV (kexp : K → K) : Val K → Val K
  | num a => num (kexp a)
  | nan => nan

end Val

/-! ## Variable store (`obr_macro/variables.py`, class `Variables`)

`Variables` wraps per-name arrays of length `n` over a quarterly horizon
starting at absolute quarter `startQ`.  Arrays are created lazily filled with
NaN (`_ensure`); `names` is the dict-key list.  numpy indexing semantics for
`get`/`set`: an index `t` with `0 ≤ t < n` reads cell `t`; `-n ≤ t < 0` reads
cell `n + t` (Python negative indexing); anything else raises `IndexError`,
modelled as `Except.error`. -/

/-- The variable store of `variables.py`. -/
structure Variables (K : Type) where
  /-- Absolute quarter number of the first period of the horizon. -/
  startQ : Int
  /-- Number of quarterly periods in the horizon. -/
  n : Nat
  /-- Dict keys, in insertion order. -/
  names : List String
  /-- Array contents; only meaningful for `name ∈ names`. -/
  arr : String → Nat → Val K

variable {K : Type} [LinearOrderedField K]

/-- In-horizon cell read used by the solver (`v[name][t]` for in-range `t`);
a missing name reads as a freshly `_ensure`d all-NaN array. -/
def vAt (v : Variables K) (name : String) (t : Nat) : Val K :=
  if name ∈ v.names then v.arr name t else Val.nan

/-- In-horizon cell write (`_ensure(name)[t] = value` for in-range `t`). -/
def setAt (v : Variables K) (name : String) (t : Nat) (x : Val K) : Variables K :=
  { v with
    names := if name ∈ v.names then v.names else v.names ++ [name]
    arr := fun w u => if w = name ∧ u = t then x else v.arr w u }

/-- numpy index resolution for an array of length `n`: in-range indices map to
themselves, negative indices in `[-n, 0)` alias cell `n + t`, anything else is
an `IndexError` (`none`). -/
def npIdx (n : Nat) (t : Int) : Option Nat :=
  if 0 ≤ t ∧ t < (n : Int) then some t.toNat
  else if -(n : Int) ≤ t ∧ t < 0 then some ((n : Int) + t).toNat
  else none

/-- `Variables.get(name, t) -> float` with numpy indexing semantics. -/
def vGet (v : Variables K) (name : String) (t : Int) : Except String (Val K) :=
  match npIdx v.n t with
  | some i => .ok (vAt v name i)
  | none => .error "IndexError: index out of bounds"

/-- `Variables.set(name, t, value)` with numpy indexing semantics. -/
def vSet (v : Variables K) (name : String) (t : Int) (x : Val K) :
    Except String (Variables K) :=
  match npIdx v.n t with
  | some i => .ok (setAt v name i x)
  | none => .error "IndexError: index out of bounds"

/-! ## Period labels -/

def isDigitCh (c : Char) : Bool := 48 ≤ c.toNat ∧ c.toNat ≤ 57

def digitVal (c : Char) : Nat := c.toNat - '0'.toNat

/-- Parse a canonical quarterly label "YYYYQn" to its absolute quarter number
`year * 4 + (n - 1)`; any other string is malformed (`none`).  Models
`pandas.Period(s, freq="Q")` on the canonical label syntax (see the header). -/
def parseQ (s : String) : Option Int :=
  match s.data with
  | [a, b, c, d, e, f] =>
    if isDigitCh a ∧ isDigitCh b ∧ isDigitCh c ∧ isDigitCh d ∧ e = 'Q' ∧
        49 ≤ f.toNat ∧ f.toNat ≤ 52 then
      some (((digitVal a * 1000 + digitVal b * 100 + digitVal c * 10 +
        digitVal d) * 4 + (digitVal f - 1) : Nat) : Int)
    else none
  | _ => none

/-- `Variables.period_to_idx`: label to integer index; malformed labels and
labels outside the horizon fail with a lookup error (`pd.Period` /
`Index.get_loc` raise). -/
def periodToIdx (v : Variables K) (s : String) : Except String Nat :=
  match parseQ s with
  | none => .error "ValueError: malformed period label"
  | some p =>
    if v.startQ ≤ p ∧ p < v.startQ + (v.n : Int) then .ok (p - v.startQ).toNat
    else .error "KeyError: period not in horizon"

/-- `Variables.trend(t, base_period)`: quarters since the base period; the
lookup error propagates to the caller. -/
def varsTrend (v : Variables K) (t : Int) (base : String) : Except String K :=
  match periodToIdx v base with
  | .ok b => .ok ((t - (b : Int) : Int) : K)
  | .error e => .error e

/-- `FullOBRSolver._trend(t, base)` (full_solver.py): the same base-label
lookup, but wrapped in `try/except` returning `0.0` on any failure. -/
def fsTrend (startQ : Int) (n : Nat) (t : Int) (base : String) : K :=
  match parseQ base with
  | none => 0
  | some p =>
    if startQ ≤ p ∧ p < startQ + (n : Int) then ((t - (p - startQ) : Int) : K)
    else 0

/-! ## Period solver (`obr_macro/solver.py`, `solve_period`)

An equation group is an arbitrary callable mutating the store for period `t`
(`SolveGroup = Callable[[Variables, int], None]`); in the model a group is a
function `Variables K → Nat → Variables K`.  `solve_period` runs Gauss-Seidel
passes: snapshot the per-period values, run every group in order, compute the
maximum per-variable change, stop when it is below `tol` or after `max_iter`
passes.  Indexing is modelled for in-horizon `t` (out-of-range `t` raises in
the source and is outside this model). -/

/-- One full pass: run every group in order against period `t`. -/
def runGroups (groups : List (Variables K → Nat → Variables K))
    (t : Nat) (v : Variables K) : Variables K :=
  groups.foldl (fun w g => g w t) v

/-- Python `abs` on floats (kernel-evaluable, unlike Mathlib `|.|`). -/
def pyAbs (x : K) : K := if x < 0 then -x else x

/-- Python `max` on two floats (ties keep the first argument). -/
def pyMax (a b : K) : K := if a < b then b else a

/-- The per-variable change in `solve_period`'s convergence check:
relative change when `old` and `new` are finite and `old != 0`; otherwise the
absolute change when `new - old` is finite, else `0.0`. -/
def varDelta (o nw : Val K) : K :=
  if o.isfinite ∧ nw.isfinite ∧ ¬ o.eqz then pyAbs ((nw.toRd - o.toRd) / o.toRd)
  else if (Val.sub nw o).isfinite then pyAbs (nw.toRd - o.toRd) else 0

/-- The convergence metric of a pass: the running maximum (`max_delta`,
starting at `0.0`, updated by `if delta > max_delta`) of `varDelta` between
the pre-pass snapshot and the post-pass store, over the post-pass names. -/
def passMetric (vold vnew : Variables K) (t : Nat) : K :=
  vnew.names.foldl
    (fun acc name =>
      let d := varDelta (vAt vold name t) (vAt vnew name t)
      if acc < d then d else acc) 0

/-- The loop of `solve_period`: `fuel` remaining iterations, `done` completed
ones; returns the final store and the reported iteration count. -/
def solvePeriodAux (groups : List (Variables K → Nat → Variables K))
    (t : Nat) (tol : K) : Variables K → Nat → Nat → Variables K × Nat
  | v, 0, done => (v, done)
  | v, fuel + 1, done =>
    let v2 := runGroups groups t v
    if passMetric v v2 t < tol then (v2, done + 1)
    else solvePeriodAux groups t tol v2 fuel (done + 1)

/-- `solve_period(v, t, groups, max_iter, tol) -> iterations`; the pair also
carries the mutated store. -/
def solvePeriod (v : Variables K) (t : Nat)
    (groups : List (Variables K → Nat → Variables K))
    (maxIter : Nat) (tol : K) : Variables K × Nat :=
  solvePeriodAux groups t tol v maxIter 0

/-- The claim-side formulation of the per-variable change (spec §4.3 step 3):
relative change `|new - old| / |old|` when `old` is finite and nonzero, else
the raw absolute change when finite, else zero — non-contributing in
particular when either value is NaN. -/
def claimDelta (o nw : Val K) : K :=
  match o, nw with
  | Val.num a, Val.num b => if a = 0 then |b - a| else |b - a| / |a|
  | _, _ => 0

/-! ## Full-system solver (`obr_macro/full_solver.py`, class `FullOBRSolver`)

`self.data` is a pandas DataFrame: columns `cols`, `n` rows (quarterly
periods).  `_get(var, t)` returns NaN when the column is missing or `t` is
out of range.  Equations are `ParsedEquation`s whose `python_expr` string is
evaluated with `eval` against a context holding the per-period dict `v`,
`_lag`, and so on; the evaluable expressions are modelled by the AST `PExpr`
below, with `Option` as the exception monad (`none` = `eval` raised, e.g. a
`KeyError` for an unknown variable name). -/

/-- The solver DataFrame `self.data`. -/
structure Frame (K : Type) where
  /-- Column names (`self.data.columns`). -/
  cols : List String
  /-- Number of rows (`len(self.data)`). -/
  n : Nat
  /-- Cell contents; only meaningful for `var ∈ cols` and `0 ≤ t < n`. -/
  entry : String → Int → Val K

/-- `FullOBRSolver._get(var, t)`: NaN for a missing column or out-of-range
row. -/
def fget (F : Frame K) (var : String) (t : Int) : Val K :=
  if var ∈ F.cols ∧ 0 ≤ t ∧ t < (F.n : Int) then F.entry var t else Val.nan

/-- Row-`t` cell write `self.data.iloc[t, col_idx[var]] = val` (callers guard
`var ∈ cols` and pass in-range `t`). -/
def fset (F : Frame K) (var : String) (t : Int) (x : Val K) : Frame K :=
  { F with entry := fun w u => if w = var ∧ u = t then x else F.entry w u }

/-- `FullOBRSolver._lag(var, lag, t) = _get(var, t - lag)`. -/
def flag (F : Frame K) (var : String) (lag t : Int) : Val K :=
  fget F var (t - lag)

/-- The per-period context dict `v = {col: self.data.iloc[t][col] for col in
self.data.columns}`; keys are exactly the frame columns. -/
def initV (F : Frame K) (t : Int) : String → Option (Val K) :=
  fun name => if name ∈ F.cols then some (F.entry name t) else none

/-- AST of the transpiled Python expressions the solver `eval`s: numeric
literals, `v[name]` dict lookups, `_lag(name, k)` calls, arithmetic, and
`np.log` / `np.exp`. -/
inductive PExpr where
  | lit (q : ℚ)
  | pvar (name : String)
  | plag (name : String) (k : Int)
  | pneg (a : PExpr)
  | padd (a b : PExpr)
  | psub (a b : PExpr)
  | pmul (a b : PExpr)
  | pdivE (a b : PExpr)
  | plogE (a : PExpr)
  | pexpE (a : PExpr)
deriving DecidableEq

/-- Evaluate a transpiled expression against the context: `v[name]` raises
`KeyError` (`none`) for a missing key; `_lag` reads the frame with NaN for
out-of-range periods; arithmetic propagates NaN. -/
def evalP (klog kexp : K → K) (vdict : String → Option (Val K)) (F : Frame K)
    (t : Int) : PExpr → Option (Val K)
  | .lit q => some (Val.num (q : K))
  | .pvar name => vdict name
  | .plag name k => some (flag F name k t)
  | .pneg a => (evalP klog kexp vdict F t a).map Val.neg
  | .padd a b => do pure (Val.add (← evalP klog kexp vdict F t a) (← evalP klog kexp vdict F t b))
  | .psub a b => do pure (Val.sub (← evalP klog kexp vdict F t a) (← evalP klog kexp vdict F t b))
  | .pmul a b => do pure (Val.mul (← evalP klog kexp vdict F t a) (← evalP klog kexp vdict F t b))
  | .pdivE a b => do pure (Val.div (← evalP klog kexp vdict F t a) (← evalP klog kexp vdict F t b))
  | .plogE a => (evalP klog kexp vdict F t a).map (Val.logV klog)
  | .pexpE a => (evalP klog kexp vdict F t a).map (Val.expV kexp)

/-- A parsed model equation as the full solver consumes it: the raw LHS text
and the transpiled RHS. -/
structure FEq where
  lhs : String
  rhs : PExpr

/-! ### Character-list string primitives

Python string operations, mirrored by structural recursion on `List Char`
(the core `String` functions do not evaluate inside the kernel). -/

/-- Python `str.isspace` characters (the regex `\s` class, ASCII). -/
def isSpaceCh (c : Char) : Bool :=
  c.toNat = 32 ∨ c.toNat = 9 ∨ c.toNat = 10 ∨ c.toNat = 13 ∨
  c.toNat = 11 ∨ c.toNat = 12

/-- Python `str.strip()`. -/
def trimL (cs : List Char) : List Char :=
  ((cs.dropWhile isSpaceCh).reverse.dropWhile isSpaceCh).reverse

/-- Python `str.startswith(pat)` on character lists. -/
def startsWithL : List Char → List Char → Bool
  | _, [] => true
  | [], _ :: _ => false
  | c :: cs, p :: ps => c = p && startsWithL cs ps

/-- Python `pat in s` substring test on character lists. -/
def hasSubL : List Char → List Char → Bool
  | [], pat => startsWithL [] pat
  | cs@(_ :: rest), pat => startsWithL cs pat || hasSubL rest pat

/-- Python `str.lower()` on one ASCII character. -/
def lowerCh (c : Char) : Char :=
  if 'A' ≤ c ∧ c ≤ 'Z' then Char.ofNat (c.toNat + 32) else c

/-- Python `str.lower()` on character lists. -/
def lowerL (cs : List Char) : List Char := cs.map lowerCh

/-- Python `c in s` for a single character. -/
def containsChL (cs : List Char) (c : Char) : Bool := cs.any (fun x => x = c)

/-- Python `s.replace(pat, "")` for nonempty `pat`: left-to-right,
non-overlapping removal of every occurrence (the counter skips the tail of a
just-matched occurrence, keeping the recursion structural). -/
def removeAllLAux : List Char → List Char → Nat → List Char
  | [], _, _ => []
  | _ :: rest, pat, Nat.succ k => removeAllLAux rest pat k
  | cs@(c :: rest), pat, 0 =>
    if startsWithL cs pat then removeAllLAux rest pat (pat.length - 1)
    else c :: removeAllLAux rest pat 0
termination_by structural cs _ _ => cs

/-- Python `s.replace(pat, "")` for nonempty `pat`. -/
def removeAllL (cs pat : List Char) : List Char := removeAllLAux cs pat 0

/-- Python `pat in s` substring test. -/
def hasSub (s pat : String) : Bool := hasSubL s.data pat.data

/-- `eq.lhs.lower().startswith("dlog(")`. -/
def startsDlog (lhs : String) : Bool := startsWithL (lowerL lhs.data) "dlog(".data

/-- `eq.lhs.lower().startswith("d(")`. -/
def startsD (lhs : String) : Bool := startsWithL (lowerL lhs.data) "d(".data

/-- `FullOBRSolver._extract_lhs_var(lhs)`: strip, then dispatch on the LHS
form (`split("/")[0]`, `lhs[5:-1]` for `dlog(`, `lhs[2:-1]` for `d(`,
`@IDENTITY` removal, else the bare name). -/
def extractLhsVar (lhs : String) : String :=
  let l := trimL lhs.data
  if containsChL l '/' then ⟨trimL (l.takeWhile (fun c => c ≠ '/'))⟩
  else if startsWithL (lowerL l) "dlog(".data then ⟨trimL (l.drop 5).dropLast⟩
  else if startsWithL (lowerL l) "d(".data then ⟨trimL (l.drop 2).dropLast⟩
  else if startsWithL l "@IDENTITY".data then ⟨trimL (removeAllL l "@IDENTITY".data)⟩
  else ⟨l⟩

/-- The new value an equation derives from its RHS value, before any residual
adjustment — the `if "/" in eq.lhs / dlog / d( / else` chain shared verbatim
by `_compute_residuals` (as `predicted`) and `solve_period` (as `new_val`). -/
def rawNewVal (kexp : K → K) (lhs : String) (rhsv lagv : Val K) : Val K :=
  if hasSub lhs "/" then
    (if lagv.isfinite then Val.mul lagv rhsv else Val.nan)
  else if startsDlog lhs then
    (if lagv.isfinite then Val.mul lagv (Val.expV kexp rhsv) else Val.nan)
  else if startsD lhs then
    (if lagv.isfinite then Val.add lagv rhsv else Val.nan)
  else rhsv

/-- The behavioral-equation filter used by both `_compute_residuals` and
`_initialize_historical` (complemented): `"/" in eq.lhs or
eq.lhs.lower().startswith("dlog(") or eq.lhs.lower().startswith("d(")`. -/
def behavioral (lhs : String) : Bool :=
  hasSub lhs "/" || startsDlog lhs || startsD lhs

/-- The per-(equation, period) body of `FullOBRSolver._compute_residuals`,
evaluated against the baseline frame `B`: evaluate the RHS in the baseline
context, derive `predicted` by the equation-form chain, and store
`actual - predicted` when both are finite (otherwise, or on an evaluation
exception, store nothing). -/
def residualAt (klog kexp : K → K) (B : Frame K) (eq : FEq) (t : Int) :
    Option K :=
  match evalP klog kexp (initV B t) B t eq.rhs with
  | none => none
  | some rhsv =>
    let var := extractLhsVar eq.lhs
    let actual := fget B var t
    let predicted := rawNewVal kexp eq.lhs rhsv (flag B var 1 t)
    if actual.isfinite ∧ predicted.isfinite then
      some (actual.toRd - predicted.toRd)
    else none

/-- The mutable state of one `FullOBRSolver.solve_period` iteration: the
DataFrame, the context dict `v`, and the running `max_change`. -/
structure FState (K : Type) where
  frame : Frame K
  v : String → Option (Val K)
  maxChange : K

/-- One equation of the `for eq in self.equations` loop body inside
`FullOBRSolver.solve_period`: evaluate the RHS (`none` = exception = skip),
derive the new value, and if it is finite add the stored residual (unless in
shock mode), commit to the DataFrame (when the column exists) and to the
context dict, and fold the relative change into `max_change` when the old
value is finite with `abs(old) > 1e-10`. -/
def eqStep (klog kexp : K → K) (resid : String → Int → Option K)
    (shock : Bool) (t : Int) (S : FState K) (eq : FEq) : FState K :=
  match evalP klog kexp S.v S.frame t eq.rhs with
  | none => S
  | some rhsv =>
    let var := extractLhsVar eq.lhs
    let oldv := (S.v var).getD Val.nan
    let nv := rawNewVal kexp eq.lhs rhsv (flag S.frame var 1 t)
    if nv.isfinite then
      let nv2 := if shock then nv else nv.addK ((resid var t).getD 0)
      let F2 := if var ∈ S.frame.cols then fset S.frame var t nv2 else S.frame
      let v2 := fun w => if w = var then some nv2 else S.v w
      let mc2 :=
        if oldv.isfinite ∧ (1 : K) / 10000000000 < pyAbs oldv.toRd then
          pyMax S.maxChange (pyAbs (nv2.toRd - oldv.toRd) / pyAbs oldv.toRd)
        else S.maxChange
      ⟨F2, v2, mc2⟩
    else S

/-- One full Gauss-Seidel pass of `FullOBRSolver.solve_period`: rebuild the
context dict from the frame row, reset `max_change` to `0.0`, and run every
equation in order. -/
def fullPass (klog kexp : K → K) (resid : String → Int → Option K)
    (shock : Bool) (t : Int) (eqs : List FEq) (F : Frame K) : FState K :=
  eqs.foldl (eqStep klog kexp resid shock t) ⟨F, initV F t, 0⟩

/-- The iteration loop of `FullOBRSolver.solve_period`. -/
def fullSolveAux (klog kexp : K → K) (resid : String → Int → Option K)
    (shock : Bool) (t : Int) (eqs : List FEq) (tol : K) :
    Frame K → Nat → Nat → Frame K × Nat
  | F, 0, done => (F, done)
  | F, fuel + 1, done =>
    let S := fullPass klog kexp resid shock t eqs F
    if S.maxChange < tol then (S.frame, done + 1)
    else fullSolveAux klog kexp resid shock t eqs tol S.frame fuel (done + 1)

/-- `FullOBRSolver.solve_period(t, max_iter, tol) -> iterations`; the pair
also carries the mutated DataFrame. -/
def fullSolvePeriod (klog kexp : K → K) (resid : String → Int → Option K)
    (shock : Bool) (eqs : List FEq) (F : Frame K) (t : Int)
    (maxIter : Nat) (tol : K) : Frame K × Nat :=
  fullSolveAux klog kexp resid shock t eqs tol F maxIter 0

/-! ## The common Gauss-Seidel loop scheme

Both period solvers are instances of one iteration scheme: run a pass
producing a new state and a convergence measure, stop with the pass count as
soon as the measure is below tolerance, report the cap otherwise. -/

/-- The shared loop scheme: `body` maps a state to (new state, convergence
measure). -/
def gsLoop {α : Type} (body : α → α × K) (tol : K) :
    α → Nat → Nat → α × Nat
  | s, 0, done => (s, done)
  | s, fuel + 1, done =>
    let p := body s
    if p.2 < tol then (p.1, done + 1)
    else gsLoop body tol p.1 fuel (done + 1)

/-! ## Claims C8 and C9: label lookup and store indexing -/

/-- A small concrete store: horizon 2020Q1..2020Q4 (absolute quarters
8080..8083), one variable `X` with value 7 in the last period. -/
def storeA : Variables ℚ :=
  { startQ := 8080, n := 4, names := ["X"],
    arr := fun w u => if w = "X" ∧ u = 3 then Val.num 7 else Val.nan }

/-- C9 counterexample: on a 4-period store, `get("X", -1)` neither fails nor
returns NaN — numpy negative indexing silently reads period 3's value — and
`set("X", -1, 9)` silently writes the in-horizon cell 3. -/
theorem c9_counterexample :
    vGet storeA "X" (-1) = Except.ok (Val.num (7 : ℚ)) ∧
    vGet storeA "X" 3 = Except.ok (Val.num (7 : ℚ)) ∧
    (vSet storeA "X" (-1) (Val.num 9)).map (fun w => vAt w "X" 3) =
      Except.ok (Val.num (9 : ℚ)) := by
  refine ⟨?_, ?_, ?_⟩ <;> decide

omit [LinearOrderedField K] in
/-- C9 (amended): `get`/`set` raise `IndexError` exactly when `t ≥ n` or
`t < -n`; for `-n ≤ t < 0` they silently alias the in-horizon cell `n + t`
(Python negative indexing), so out-of-horizon indices in `[-n, 0)` do read
and write a different period's cell rather than failing or returning NaN. -/
theorem c9_amended (v : Variables K) (name : String) (t : Int) :
    (t < -(v.n : Int) ∨ (v.n : Int) ≤ t →
      vGet v name t = Except.error "IndexError: index out of bounds" ∧
      ∀ x, vSet v name t x = Except.error "IndexError: index out of bounds") ∧
    (-(v.n : Int) ≤ t → t < 0 →
      vGet v name t = Except.ok (vAt v name ((v.n : Int) + t).toNat) ∧
      ∀ x, vSet v name t x =
        Except.ok (setAt v name ((v.n : Int) + t).toNat x)) := by
  constructor
  · intro h
    have hn : npIdx v.n t = none := by
      unfold npIdx
      rcases h with h | h
      · rw [if_neg (by omega), if_neg (by omega)]
      · rw [if_neg (by omega), if_neg (by omega)]
    exact ⟨by simp [vGet, hn], fun x => by simp [vSet, hn]⟩
  · intro h1 h2
    have hn : npIdx v.n t = some ((v.n : Int) + t).toNat := by
      unfold npIdx
      rw [if_neg (by omega), if_pos (by omega)]
    exact ⟨by simp [vGet, hn], fun x => by simp [vSet, hn]⟩

/-- Witness for `c9_amended` at the concrete store: index 9 raises, index -1
aliases cell 3. -/
theorem c9_amended_witness :
    vGet storeA "X" 9 = Except.error "IndexError: index out of bounds" ∧
    vGet storeA "X" (-1) = Except.ok (vAt storeA "X" 3) := by
  refine ⟨((c9_amended storeA "X" 9).1 (by decide)).1, ?_⟩
  have h := ((c9_amended storeA "X" (-1)).2 (by decide) (by decide)).1
  simpa using h

/-- C8 counterexample: with horizon 2020Q1..2020Q4, the base label "2030Q1"
is outside the horizon; `period_to_idx` fails with a lookup error, but the
full solver's `_trend` helper catches the failure and silently substitutes
the default `0.0`. -/
theorem c8_counterexample :
    periodToIdx storeA "2030Q1" =
      Except.error "KeyError: period not in horizon" ∧
    fsTrend (8080 : Int) 4 2 "2030Q1" = (0 : ℚ) ∧
    fsTrend (8080 : Int) 4 2 "banana" = (0 : ℚ) := by
  refine ⟨?_, ?_, ?_⟩ <;> decide

/-- C8 (amended): `period_to_idx` fails with a descriptive error for a
malformed label or one outside the horizon and never clamps (a successful
lookup returns exactly the label's offset); `Variables.trend` propagates the
error; but `FullOBRSolver._trend` catches any failure of its base-label
lookup and substitutes the default `0.0` instead of failing. -/
theorem c8_amended (v : Variables K) (s : String) (t : Int) :
    (parseQ s = none →
      periodToIdx v s = Except.error "ValueError: malformed period label" ∧
      varsTrend v t s = Except.error "ValueError: malformed period label" ∧
      fsTrend v.startQ v.n t s = (0 : K)) ∧
    (∀ p : Int, parseQ s = some p →
      ¬ (v.startQ ≤ p ∧ p < v.startQ + (v.n : Int)) →
      periodToIdx v s = Except.error "KeyError: period not in horizon" ∧
      varsTrend v t s = Except.error "KeyError: period not in horizon" ∧
      fsTrend v.startQ v.n t s = (0 : K)) ∧
    (∀ p : Int, parseQ s = some p →
      v.startQ ≤ p → p < v.startQ + (v.n : Int) →
      periodToIdx v s = Except.ok (p - v.startQ).toNat ∧
      fsTrend v.startQ v.n t s = ((t - (p - v.startQ) : Int) : K)) := by
  refine ⟨?_, ?_, ?_⟩
  · intro h
    exact ⟨by simp [periodToIdx, h], by simp [varsTrend, periodToIdx, h],
      by simp [fsTrend, h]⟩
  · intro p hp hout
    refine ⟨by simp [periodToIdx, hp, hout], ?_, ?_⟩
    · simp [varsTrend, periodToIdx, hp, hout]
    · simp [fsTrend, hp, hout]
  · intro p hp h1 h2
    exact ⟨by simp [periodToIdx, hp, h1, h2], by simp [fsTrend, hp, h1, h2]⟩

/-- Witness for `c8_amended`: malformed and out-of-horizon labels on the
concrete store. -/
theorem c8_amended_witness :
    periodToIdx storeA "nope" =
      Except.error "ValueError: malformed period label" ∧
    periodToIdx storeA "2020Q3" = Except.ok 2 := by
  constructor
  · exact ((c8_amended storeA "nope" 0).1 (by decide)).1
  · have h := ((c8_amended storeA "2020Q3" 0).2.2 8082 (by decide)
      (by decide) (by decide)).1
    simpa using h

/-! ## Claims C2, C3: convergence behavior of `solve_period` -/

/-- The store after `k` full Gauss-Seidel passes over period `t`. -/
def iterPass (groups : List (Variables K → Nat → Variables K)) (t : Nat)
    (k : Nat) (v : Variables K) : Variables K :=
  (fun w => runGroups groups t w)^[k] v

omit [LinearOrderedField K] in
theorem iterPass_zero (groups : List (Variables K → Nat → Variables K))
    (t : Nat) (v : Variables K) : iterPass groups t 0 v = v := rfl

omit [LinearOrderedField K] in
theorem iterPass_succ (groups : List (Variables K → Nat → Variables K))
    (t k : Nat) (v : Variables K) :
    iterPass groups t (k + 1) v = iterPass groups t k (runGroups groups t v) := by
  simp [iterPass, Function.iterate_succ_apply]

/-- Full characterization of the `solve_period` loop: it performs `c ≤ fuel`
passes, every pass before the last had metric `≥ tol`, and when it stops
before exhausting the fuel the final pass's metric is `< tol`. -/
theorem solvePeriodAux_spec (groups : List (Variables K → Nat → Variables K))
    (t : Nat) (tol : K) :
    ∀ (fuel : Nat) (v : Variables K) (done : Nat),
      ∃ c : Nat,
        solvePeriodAux groups t tol v fuel done =
          (iterPass groups t c v, done + c) ∧
        c ≤ fuel ∧
        (∀ k, k + 1 < c →
          tol ≤ passMetric (iterPass groups t k v)
            (iterPass groups t (k + 1) v) t) ∧
        (c < fuel → 1 ≤ c ∧
          passMetric (iterPass groups t (c - 1) v)
            (iterPass groups t c v) t < tol) := by
  intro fuel
  induction fuel with
  | zero =>
    intro v done
    exact ⟨0, by simp [solvePeriodAux, iterPass], le_refl 0,
      fun k hk => absurd hk (by omega), fun h => absurd h (by omega)⟩
  | succ fuel ih =>
    intro v done
    by_cases hm : passMetric v (runGroups groups t v) t < tol
    · refine ⟨1, ?_, by omega, fun k hk => absurd hk (by omega), fun _ => ⟨le_refl 1, ?_⟩⟩
      · simp [solvePeriodAux, hm, iterPass]
      · simpa [iterPass] using hm
    · obtain ⟨c, hc1, hc2, hc3, hc4⟩ := ih (runGroups groups t v) (done + 1)
      refine ⟨c + 1, ?_, by omega, ?_, ?_⟩
      · rw [show done + (c + 1) = (done + 1) + c by omega]
        rw [iterPass_succ]
        simpa [solvePeriodAux, hm] using hc1
      · intro k hk
        match k with
        | 0 =>
          simpa [iterPass, Function.iterate_succ_apply] using not_lt.mp hm
        | j + 1 =>
          rw [iterPass_succ, iterPass_succ groups t (j + 1)]
          exact hc3 j (by omega)
      · intro hlt
        have h4 := hc4 (by omega)
        refine ⟨by omega, ?_⟩
        have h1c : 1 ≤ c := h4.1
        rw [show c + 1 - 1 = (c - 1) + 1 by omega, iterPass_succ, iterPass_succ]
        exact h4.2

/-- `acc` never exceeds the running max of the fold. -/
theorem foldl_runmax_ge_acc {α : Type} (f : α → K) :
    ∀ (l : List α) (acc : K),
      acc ≤ l.foldl (fun a x => if a < f x then f x else a) acc := by
  intro l
  induction l with
  | nil => intro acc; simp
  | cons c l ih =>
    intro acc
    refine le_trans ?_ (ih (if acc < f c then f c else acc))
    by_cases h : acc < f c <;> simp [h, le_of_lt]

/-- Every element's value is below the running max of the fold. -/
theorem foldl_runmax_ge_elem {α : Type} (f : α → K) :
    ∀ (l : List α) (acc : K) (x : α), x ∈ l →
      f x ≤ l.foldl (fun a x => if a < f x then f x else a) acc := by
  intro l
  induction l with
  | nil => intro acc x hx; cases hx
  | cons c l ih =>
    intro acc x hx
    rcases List.mem_cons.mp hx with h | h
    · subst h
      refine le_trans ?_ (foldl_runmax_ge_acc f l _)
      by_cases h : acc < f x <;> simp [h]
      exact le_of_not_lt h
    · exact ih _ x h

theorem passMetric_nonneg (vold vnew : Variables K) (t : Nat) :
    0 ≤ passMetric vold vnew t :=
  foldl_runmax_ge_acc _ vnew.names 0

theorem passMetric_ge (vold vnew : Variables K) (t : Nat) (name : String)
    (h : name ∈ vnew.names) :
    varDelta (vAt vold name t) (vAt vnew name t) ≤ passMetric vold vnew t :=
  foldl_runmax_ge_elem
    (fun name => varDelta (vAt vold name t) (vAt vnew name t)) vnew.names 0 name h

theorem varDelta_nan_right (o : Val K) : varDelta o (Val.nan) = 0 := by
  cases o <;> simp [varDelta, Val.isfinite, Val.sub]

/-- The claim-side convergence metric (spec §4.3 step 3): the maximum over
all variables in the store of the claim-described per-variable change. -/
def claimMetric (vold vnew : Variables K) (t : Nat) : K :=
  vnew.names.foldl
    (fun acc name => max acc (claimDelta (vAt vold name t) (vAt vnew name t))) 0

theorem pyAbs_eq_abs (x : K) : pyAbs x = |x| := by
  unfold pyAbs
  rcases lt_or_ge x 0 with h | h
  · rw [if_pos h, abs_of_neg h]
  · rw [if_neg (not_lt.mpr h), abs_of_nonneg h]

/-- The running-max fold body of the source equals the `max` fold body. -/
theorem ite_lt_eq_max (a b : K) : (if a < b then b else a) = max a b := by
  rcases lt_or_ge a b with h | h
  · rw [if_pos h, max_eq_right (le_of_lt h)]
  · rw [if_neg (not_lt.mpr h), max_eq_left h]

/-- The code's per-variable change coincides with the claim-side one. -/
theorem varDelta_eq_claimDelta (o nw : Val K) : varDelta o nw = claimDelta o nw := by
  cases o with
  | nan => cases nw <;> simp [varDelta, claimDelta, Val.isfinite, Val.sub]
  | num a =>
    cases nw with
    | nan => simp [varDelta, claimDelta, Val.isfinite, Val.sub]
    | num b =>
      by_cases h : a = 0
      · subst h
        simp [varDelta, claimDelta, Val.isfinite, Val.eqz, Val.sub, Val.toRd,
          pyAbs_eq_abs]
      · simp [varDelta, claimDelta, Val.isfinite, Val.eqz, Val.sub, Val.toRd, h,
          pyAbs_eq_abs, abs_div]

theorem foldl_ite_max_eq {α : Type} (f : α → K) :
    ∀ (l : List α) (acc : K),
      l.foldl (fun a x => if a < f x then f x else a) acc =
      l.foldl (fun a x => max a (f x)) acc := by
  intro l
  induction l with
  | nil => intro acc; rfl
  | cons c l ih =>
    intro acc
    simp only [List.foldl_cons]
    rw [ite_lt_eq_max]
    exact ih _

/-- The code's pass metric coincides with the claim-side maximum. -/
theorem passMetric_eq_claimMetric (vold vnew : Variables K) (t : Nat) :
    passMetric vold vnew t = claimMetric vold vnew t := by
  unfold passMetric claimMetric
  simp only [varDelta_eq_claimDelta]
  exact foldl_ite_max_eq
    (fun name => claimDelta (vAt vold name t) (vAt vnew name t)) vnew.names 0

/-- A one-variable store over one period, `X = 1`. -/
def storeC : Variables ℚ :=
  { startQ := 8080, n := 1, names := ["X"],
    arr := fun w u => if w = "X" ∧ u = 0 then Val.num 1 else Val.nan }

/-- An equation group (a legal arbitrary callable under the solver contract)
that nudges `X` up by `1e-7` while `X ≤ 1` and jumps it to `100` once past. -/
def cgroup : Variables ℚ → Nat → Variables ℚ := fun v t =>
  setAt v "X" t
    (if (vAt v "X" t).toRd ≤ 1 then Val.num (1 + 1 / 10000000) else Val.num 100)

/-- C2 counterexample: with group `cgroup`, tolerance `1e-6` and
`max_iter = 2`, `solve_period` returns `1 < max_iter`, yet re-running the
same groups once more against the resulting state changes `X` by a relative
change of about `99`, far more than `tol`: the claim's second conjunct fails
for this store/group/tolerance. -/
theorem c2_counterexample :
    (solvePeriod storeC 0 [cgroup] 2 (1 / 1000000 : ℚ)).2 = 1 ∧
    (1 / 1000000 : ℚ) <
      varDelta
        (vAt (solvePeriod storeC 0 [cgroup] 2 (1 / 1000000 : ℚ)).1 "X" 0)
        (vAt (runGroups [cgroup] 0
          (solvePeriod storeC 0 [cgroup] 2 (1 / 1000000 : ℚ)).1) "X" 0) := by
  constructor <;>
    norm_num [solvePeriod, solvePeriodAux, runGroups, passMetric, varDelta,
      vAt, setAt, cgroup, storeC, pyAbs, Val.isfinite, Val.eqz, Val.toRd,
      Val.sub]

/-- C2 (amended): `solve_period` always returns a count `≤ max_iter`; when
the count is `< max_iter`, the final executed pass already met tolerance: its
convergence metric is `< tol`, so no variable changed by more than `tol`
relative during that final pass.  (Re-running the groups once more from the
resulting state is not bounded by `tol` in general, since a group may react
differently to the updated state — see `c2_counterexample`.) -/
theorem c2_amended (v : Variables K) (t : Nat)
    (groups : List (Variables K → Nat → Variables K)) (maxIter : Nat) (tol : K)
    (_hmi : 1 ≤ maxIter) :
    (solvePeriod v t groups maxIter tol).2 ≤ maxIter ∧
    ((solvePeriod v t groups maxIter tol).2 < maxIter →
      1 ≤ (solvePeriod v t groups maxIter tol).2 ∧
      passMetric
        (iterPass groups t ((solvePeriod v t groups maxIter tol).2 - 1) v)
        (iterPass groups t ((solvePeriod v t groups maxIter tol).2) v) t < tol ∧
      ∀ name, varDelta
        (vAt (iterPass groups t ((solvePeriod v t groups maxIter tol).2 - 1) v) name t)
        (vAt (iterPass groups t ((solvePeriod v t groups maxIter tol).2) v) name t)
        < tol) := by
  obtain ⟨c, h1, h2, _h3, h4⟩ := solvePeriodAux_spec groups t tol maxIter v 0
  have hcount : (solvePeriod v t groups maxIter tol).2 = c := by
    rw [solvePeriod, h1]; omega
  refine ⟨by rw [hcount]; exact h2, ?_⟩
  intro hlt
  rw [hcount] at hlt ⊢
  obtain ⟨hc1, hm⟩ := h4 hlt
  refine ⟨hc1, hm, ?_⟩
  intro name
  by_cases hmem : name ∈ (iterPass groups t c v).names
  · exact lt_of_le_of_lt (passMetric_ge _ _ t name hmem) hm
  · have hnan : vAt (iterPass groups t c v) name t = Val.nan := by
      simp [vAt, hmem]
    rw [hnan, varDelta_nan_right]
    exact lt_of_le_of_lt (passMetric_nonneg _ _ t) hm

/-- Witness for `c2_amended` with no groups: the count is `1 ≤ 3` and the
final (only) pass changed `X` by less than `tol`. -/
theorem c2_amended_witness :
    (solvePeriod storeC 0 [] 3 (1 / 1000000 : ℚ)).2 ≤ 3 ∧
    varDelta
      (vAt (iterPass [] 0 ((solvePeriod storeC 0 [] 3 (1 / 1000000 : ℚ)).2 - 1)
        storeC) "X" 0)
      (vAt (iterPass [] 0 ((solvePeriod storeC 0 [] 3 (1 / 1000000 : ℚ)).2)
        storeC) "X" 0) < 1 / 1000000 := by
  have h := c2_amended storeC 0 [] 3 (1 / 1000000 : ℚ) (by norm_num)
  refine ⟨h.1, ?_⟩
  have hlt : (solvePeriod storeC 0 [] 3 (1 / 1000000 : ℚ)).2 < 3 := by
    norm_num [solvePeriod, solvePeriodAux, runGroups, passMetric, varDelta,
      vAt, setAt, storeC, pyAbs, Val.isfinite, Val.eqz, Val.toRd, Val.sub]
  exact (h.2 hlt).2.2 "X"

/-- C3: the code's per-variable change equals the claim-described one, the
pass metric is the claim-described maximum over all store variables, and the
iteration stops exactly at the first pass whose metric falls below `tol`
(every earlier pass had metric `≥ tol`; when the count is below the cap the
final pass's metric is `< tol`). -/
theorem c3_convergence_metric :
    (∀ o nw : Val K, varDelta o nw = claimDelta o nw) ∧
    (∀ (vold vnew : Variables K) (t : Nat),
      passMetric vold vnew t = claimMetric vold vnew t) ∧
    ∀ (v : Variables K) (t : Nat)
      (groups : List (Variables K → Nat → Variables K)) (maxIter : Nat) (tol : K),
      (∀ k, k + 1 < (solvePeriod v t groups maxIter tol).2 →
        ¬ claimMetric (iterPass groups t k v) (iterPass groups t (k + 1) v) t
            < tol) ∧
      ((solvePeriod v t groups maxIter tol).2 < maxIter →
        1 ≤ (solvePeriod v t groups maxIter tol).2 ∧
        claimMetric
          (iterPass groups t ((solvePeriod v t groups maxIter tol).2 - 1) v)
          (iterPass groups t ((solvePeriod v t groups maxIter tol).2) v) t
          < tol) := by
  refine ⟨varDelta_eq_claimDelta, passMetric_eq_claimMetric, ?_⟩
  intro v t groups maxIter tol
  obtain ⟨c, h1, _h2, h3, h4⟩ := solvePeriodAux_spec groups t tol maxIter v 0
  have hcount : (solvePeriod v t groups maxIter tol).2 = c := by
    rw [solvePeriod, h1]; omega
  constructor
  · intro k hk
    rw [hcount] at hk
    rw [← passMetric_eq_claimMetric]
    exact not_lt.mpr (h3 k hk)
  · intro hlt
    rw [hcount] at hlt ⊢
    obtain ⟨hc1, hm⟩ := h4 hlt
    rw [← passMetric_eq_claimMetric]
    exact ⟨hc1, hm⟩

/-- Witness for `c3_convergence_metric`: concrete per-variable changes agree,
and with `tol = 1e-8` the first pass over `cgroup` has metric `≥ tol` (the
count is 2, so the loop did not stop after pass 1). -/
theorem c3_witness :
    varDelta (Val.num (2 : ℚ)) Val.nan = claimDelta (Val.num 2) Val.nan ∧
    passMetric storeC storeC 0 = claimMetric storeC storeC 0 ∧
    ¬ claimMetric (iterPass [cgroup] 0 0 storeC) (iterPass [cgroup] 0 1 storeC) 0
        < (1 / 100000000 : ℚ) := by
  have h := @c3_convergence_metric ℚ _
  refine ⟨h.1 _ _, h.2.1 _ _ _, ?_⟩
  have hc : 0 + 1 < (solvePeriod storeC 0 [cgroup] 2 (1 / 100000000 : ℚ)).2 := by
    norm_num [solvePeriod, solvePeriodAux, runGroups, passMetric, varDelta,
      vAt, setAt, cgroup, storeC, pyAbs, Val.isfinite, Val.eqz, Val.toRd,
      Val.sub]
  exact (h.2.2 storeC 0 [cgroup] 2 (1 / 100000000 : ℚ)).1 0 hc

/-! ## Claim C4: the two period solvers -/

/-- `solver.solve_period` is the `gsLoop` scheme instantiated with one full
group pass and the snapshot-based store metric. -/
theorem solvePeriodAux_eq_gsLoop (groups : List (Variables K → Nat → Variables K))
    (t : Nat) (tol : K) :
    ∀ (fuel : Nat) (v : Variables K) (done : Nat),
      solvePeriodAux groups t tol v fuel done =
        gsLoop (fun w => (runGroups groups t w,
          passMetric w (runGroups groups t w) t)) tol v fuel done := by
  intro fuel
  induction fuel with
  | zero => intro v done; rfl
  | succ fuel ih =>
    intro v done
    simp only [solvePeriodAux, gsLoop]
    by_cases h : passMetric v (runGroups groups t v) t < tol
    · simp [h]
    · simp [h, ih]

/-- `FullOBRSolver.solve_period` is the `gsLoop` scheme instantiated with one
equation pass (with residual injection) and the in-pass `max_change`. -/
theorem fullSolveAux_eq_gsLoop (klog kexp : K → K)
    (resid : String → Int → Option K) (shock : Bool) (t : Int)
    (eqs : List FEq) (tol : K) :
    ∀ (fuel : Nat) (F : Frame K) (done : Nat),
      fullSolveAux klog kexp resid shock t eqs tol F fuel done =
        gsLoop (fun G => ((fullPass klog kexp resid shock t eqs G).frame,
          (fullPass klog kexp resid shock t eqs G).maxChange)) tol F fuel done := by
  intro fuel
  induction fuel with
  | zero => intro F done; rfl
  | succ fuel ih =>
    intro F done
    simp only [fullSolveAux, gsLoop]
    by_cases h : (fullPass klog kexp resid shock t eqs F).maxChange < tol
    · simp [h]
    · simp [h, ih]

/-- C4 (amended): both period solvers are instances of the same outer
Gauss-Seidel loop scheme `gsLoop` — same pass structure and the same stopping
rule (return the pass count as soon as the pass measure is below `tol`,
report the cap otherwise) — but their bodies differ in more than the
transpiled equation list and the residual injection: the full solver's
convergence measure is the in-pass `max_change` (per-equation relative change
against the pre-update running value, counted only when the old value is
finite with `abs(old) > 1e-10`, with no absolute-change fallback), not the
§4.3 snapshot metric.  `c4_counterexample` shows the two measures produce
different iteration counts on the same one-equation system. -/
theorem c4_amended (v : Variables K) (t : Nat)
    (groups : List (Variables K → Nat → Variables K))
    (klog kexp : K → K) (resid : String → Int → Option K) (shock : Bool)
    (eqs : List FEq) (F : Frame K) (tf : Int) (maxIter : Nat) (tol : K) :
    solvePeriod v t groups maxIter tol =
      gsLoop (fun w => (runGroups groups t w,
        passMetric w (runGroups groups t w) t)) tol v maxIter 0 ∧
    fullSolvePeriod klog kexp resid shock eqs F tf maxIter tol =
      gsLoop (fun G => ((fullPass klog kexp resid shock tf eqs G).frame,
        (fullPass klog kexp resid shock tf eqs G).maxChange)) tol F maxIter 0 :=
  ⟨solvePeriodAux_eq_gsLoop groups t tol maxIter v 0,
   fullSolveAux_eq_gsLoop klog kexp resid shock tf eqs tol maxIter F 0⟩

/-- One-column DataFrame with `X = 0` in its single period. -/
def frameC : Frame ℚ :=
  { cols := ["X"], n := 1,
    entry := fun w u => if w = "X" ∧ u = 0 then Val.num 0 else Val.nan }

/-- The transpiled equation `X = 5`. -/
def eqC : FEq := { lhs := "X", rhs := PExpr.lit 5 }

/-- A solver store with `X = 0` in a single period. -/
def storeX0 : Variables ℚ :=
  { startQ := 8080, n := 1, names := ["X"],
    arr := fun w u => if w = "X" ∧ u = 0 then Val.num 0 else Val.nan }

/-- The §4.3 equation group for `X = 5`. -/
def gsetX : Variables ℚ → Nat → Variables ℚ := fun v t => setAt v "X" t (Val.num 5)

/-- C4 counterexample: on the same one-equation system `X = 5` started from
`X = 0`, the full solver reports 1 iteration (its metric ignores updates
whose old value has `abs(old) ≤ 1e-10`), while the §4.3 solver reports 2 (its
metric counts the absolute change `|5 - 0|`): the two convergence metrics are
not identical. -/
theorem c4_counterexample :
    (fullSolvePeriod (fun x : ℚ => x) (fun x : ℚ => x) (fun _ _ => none)
      false [eqC] frameC 0 5 (1 / 1000000 : ℚ)).2 = 1 ∧
    (solvePeriod storeX0 0 [gsetX] 5 (1 / 1000000 : ℚ)).2 = 2 := by
  constructor
  · have h1 : extractLhsVar "X" = "X" := by decide
    have h2 : hasSub "X" "/" = false := by decide
    have h3 : startsDlog "X" = false := by decide
    have h4 : startsD "X" = false := by decide
    norm_num [fullSolvePeriod, fullSolveAux, fullPass, eqStep, evalP,
      rawNewVal, h1, h2, h3, h4, initV, fget, fset, flag, frameC, eqC,
      Val.isfinite, Val.toRd, Val.addK, pyAbs, pyMax]
  · norm_num [solvePeriod, solvePeriodAux, runGroups, passMetric, varDelta,
      vAt, setAt, gsetX, storeX0, pyAbs, Val.isfinite, Val.eqz, Val.toRd,
      Val.sub]

/-! ## Claims C1, C6, C7: the full-solver equation step -/

/-- Run a list of equations from an arbitrary in-pass state (the tail of a
pass); `fullPass` is `passFold` from the freshly rebuilt context. -/
def passFold (klog kexp : K → K) (resid : String → Int → Option K)
    (shock : Bool) (t : Int) (eqs : List FEq) (S : FState K) : FState K :=
  eqs.foldl (eqStep klog kexp resid shock t) S

theorem fullPass_eq_passFold (klog kexp : K → K)
    (resid : String → Int → Option K) (shock : Bool) (t : Int)
    (eqs : List FEq) (F : Frame K) :
    fullPass klog kexp resid shock t eqs F =
      passFold klog kexp resid shock t eqs ⟨F, initV F t, 0⟩ := rfl

/-- Regex class `[A-Z]`. -/
def isUpperCh (c : Char) : Bool := 65 ≤ c.toNat ∧ c.toNat ≤ 90

/-- Regex class `[A-Z0-9_]` (variable-name body characters). -/
def isRunCh (c : Char) : Bool :=
  isUpperCh c ∨ isDigitCh c ∨ c.toNat = 95

/-- A well-formed EViews variable name: `[A-Z][A-Z0-9_]*`. -/
def validVarName (s : String) : Bool :=
  match s.data with
  | [] => false
  | c :: cs => isUpperCh c && cs.all isRunCh

theorem isRunCh_not_space (c : Char) (h : isRunCh c = true) :
    isSpaceCh c = false := by
  simp only [isRunCh, isUpperCh, isDigitCh, Bool.or_eq_true,
    decide_eq_true_eq] at h
  simp only [isSpaceCh, decide_eq_false_iff_not, not_or]
  omega

theorem isRunCh_ne_slash (c : Char) (h : isRunCh c = true) : c ≠ '/' := by
  intro h1
  subst h1
  exact absurd h (by decide)

theorem isRunCh_toNat (c : Char) (h : isRunCh c = true) :
    65 ≤ c.toNat ∧ c.toNat ≤ 90 ∨ 48 ≤ c.toNat ∧ c.toNat ≤ 57 ∨
      c.toNat = 95 := by
  simpa [isRunCh, isUpperCh, isDigitCh] using h

theorem validVarName_chars (s : String) (h : validVarName s = true) :
    ∀ c ∈ s.data, isRunCh c = true := by
  unfold validVarName at h
  intro c hc
  match hd : s.data with
  | [] => rw [hd] at hc; cases hc
  | b :: bs =>
    rw [hd] at h hc
    simp only [Bool.and_eq_true] at h
    rcases List.mem_cons.mp hc with h1 | h1
    · subst h1
      simp [isRunCh, h.1]
    · exact List.all_eq_true.mp h.2 c h1

theorem dropWhile_eq_self_of_head (p : Char → Bool) (cs : List Char)
    (h : ∀ c ∈ cs, p c = false) : cs.dropWhile p = cs := by
  cases cs with
  | nil => rfl
  | cons c cs => simp [List.dropWhile_cons, h c (List.mem_cons_self c cs)]

theorem trimL_eq_self (cs : List Char) (h : ∀ c ∈ cs, isSpaceCh c = false) :
    trimL cs = cs := by
  unfold trimL
  rw [dropWhile_eq_self_of_head _ cs h,
    dropWhile_eq_self_of_head _ cs.reverse
      (fun c hc => h c (List.mem_reverse.mp hc)),
    List.reverse_reverse]

theorem takeWhile_append_stop (p : Char → Bool) :
    ∀ (xs : List Char) (y : Char) (ys : List Char),
      (∀ x ∈ xs, p x = true) → p y = false →
      (xs ++ y :: ys).takeWhile p = xs := by
  intro xs
  induction xs with
  | nil => intro y ys _ hy; simp [List.takeWhile_cons, hy]
  | cons x xs ih =>
    intro y ys hx hy
    simp only [List.cons_append, List.takeWhile_cons,
      hx x (List.mem_cons_self x xs), if_pos]
    rw [ih y ys (fun a ha => hx a (List.mem_cons_of_mem x ha)) hy]

/-- `_extract_lhs_var` on a ratio-form LHS `NAME/rest` returns `NAME`. -/
theorem extractLhsVar_ratio (name rest : String)
    (hname : validVarName name = true)
    (hrest : ∀ c ∈ rest.data, isSpaceCh c = false) :
    extractLhsVar (name ++ "/" ++ rest) = name := by
  have hdata : (name ++ "/" ++ rest).data = name.data ++ '/' :: rest.data := by
    simp [String.data_append]
  have hns : ∀ c ∈ (name ++ "/" ++ rest).data, isSpaceCh c = false := by
    rw [hdata]
    intro c hc
    rcases List.mem_append.mp hc with h1 | h1
    · exact isRunCh_not_space c (validVarName_chars name hname c h1)
    · rcases List.mem_cons.mp h1 with h2 | h2
      · subst h2; decide
      · exact hrest c h2
  have htrim : trimL (name ++ "/" ++ rest).data = (name ++ "/" ++ rest).data :=
    trimL_eq_self _ hns
  have hmem : containsChL (name ++ "/" ++ rest).data '/' = true := by
    rw [hdata]
    simp [containsChL]
  have htake :
      ((name ++ "/" ++ rest).data.takeWhile (fun c => c ≠ '/')) = name.data := by
    rw [hdata]
    refine takeWhile_append_stop _ name.data '/' rest.data ?_ (by decide)
    intro x hx
    simpa using isRunCh_ne_slash x (validVarName_chars name hname x hx)
  have htrimname : trimL name.data = name.data :=
    trimL_eq_self _
      (fun c hc => isRunCh_not_space c (validVarName_chars name hname c hc))
  unfold extractLhsVar
  rw [htrim, if_pos hmem, htake, htrimname]

/-- C6: for an equation whose LHS has the ratio form `VAR/VAR(-1)`, the
solve-period update rule sets `VAR[t]` to `VAR[t-1]` multiplied by the RHS
value — before any residual adjustment — and commits exactly that product
when no residual is stored for `(VAR, t)` (here: non-shock mode with an empty
residual entry). -/
theorem c6_ratio_update (klog kexp : K → K) (resid : String → Int → Option K)
    (t : Int) (S : FState K) (eq : FEq) (name : String) (r c : K)
    (hname : validVarName name = true)
    (hlhs : eq.lhs = name ++ "/" ++ (name ++ "(-1)"))
    (heval : evalP klog kexp S.v S.frame t eq.rhs = some (Val.num r))
    (hlag : fget S.frame name (t - 1) = Val.num c)
    (hcols : name ∈ S.frame.cols) (ht0 : 0 ≤ t) (htn : t < (S.frame.n : Int))
    (hres : resid name t = none) :
    extractLhsVar eq.lhs = name ∧
    rawNewVal kexp eq.lhs (Val.num r) (fget S.frame name (t - 1)) =
      Val.num (c * r) ∧
    fget (eqStep klog kexp resid false t S eq).frame name t = Val.num (c * r) := by
  have hrestchars : ∀ ch ∈ (name ++ "(-1)").data, isSpaceCh ch = false := by
    intro ch hch
    rw [String.data_append] at hch
    rcases List.mem_append.mp hch with h1 | h1
    · exact isRunCh_not_space ch (validVarName_chars name hname ch h1)
    · fin_cases h1 <;> decide
  have hex : extractLhsVar eq.lhs = name := by
    rw [hlhs]; exact extractLhsVar_ratio name _ hname hrestchars
  have hslash : hasSub eq.lhs "/" = true := by
    rw [hlhs]
    have : '/' ∈ (name ++ "/" ++ (name ++ "(-1)")).data := by
      simp [String.data_append]
    unfold hasSub
    revert this
    generalize (name ++ "/" ++ (name ++ "(-1)")).data = cs
    intro hmem
    induction cs with
    | nil => cases hmem
    | cons a as ih =>
      rcases List.mem_cons.mp hmem with h1 | h1
      · subst h1; simp [hasSubL, startsWithL]
      · simp [hasSubL, ih h1]
  have hraw : rawNewVal kexp eq.lhs (Val.num r) (fget S.frame name (t - 1)) =
      Val.num (c * r) := by
    unfold rawNewVal
    rw [if_pos hslash, hlag]
    simp [Val.isfinite, Val.mul]
  refine ⟨hex, hraw, ?_⟩
  unfold eqStep
  rw [heval]
  simp only [hex, flag]
  rw [hraw]
  simp only [Val.isfinite, Bool.false_eq_true, if_false, if_true, hres,
    Option.getD_none, Val.addK, add_zero, if_pos hcols]
  unfold fget fset
  simp [hcols, ht0, htn]

/-- A two-period DataFrame with `CONS = 40, 10`. -/
def frameD : Frame ℚ :=
  { cols := ["CONS"], n := 2,
    entry := fun w u =>
      if w = "CONS" ∧ u = 0 then Val.num 40
      else if w = "CONS" ∧ u = 1 then Val.num 10 else Val.nan }

/-- Witness for `c6_ratio_update`: LHS `CONS/CONS(-1)`, RHS `1.05 = 21/20`,
`CONS[t-1] = 40`: the step commits `CONS[t] = 40 * (21/20)`. -/
theorem c6_witness :
    extractLhsVar "CONS/CONS(-1)" = "CONS" ∧
    rawNewVal (fun x : ℚ => x) "CONS/CONS(-1)" (Val.num (21 / 20))
      (fget frameD "CONS" (1 - 1)) = Val.num (40 * (21 / 20)) ∧
    fget (eqStep (fun x : ℚ => x) (fun x : ℚ => x) (fun _ _ => none) false 1
      ⟨frameD, initV frameD 1, 0⟩
      ⟨"CONS/CONS(-1)", PExpr.lit (21 / 20)⟩).frame "CONS" 1 =
      Val.num (40 * (21 / 20)) :=
  c6_ratio_update (fun x : ℚ => x) (fun x : ℚ => x) (fun _ _ => none) 1
    ⟨frameD, initV frameD 1, 0⟩ ⟨"CONS/CONS(-1)", PExpr.lit (21 / 20)⟩
    "CONS" (21 / 20) 40 (by decide) (by decide)
    (by norm_num [evalP]) (by decide) (by decide) (by decide) (by decide) rfl

/-- C7: if an equation's RHS evaluation raises an exception during a solve
pass (modelled as `evalP` returning `none`), that equation makes no update —
the target variable, the rest of the frame, the context dict and the running
`max_change` are all left unchanged by it — the exception does not propagate
(the step is a total skip), and the remaining equations of the pass still
execute from the same state. -/
theorem c7_exception_skips (klog kexp : K → K)
    (resid : String → Int → Option K) (shock : Bool) (t : Int)
    (pre post : List FEq) (eq : FEq) (S : FState K)
    (h : evalP klog kexp (passFold klog kexp resid shock t pre S).v
      (passFold klog kexp resid shock t pre S).frame t eq.rhs = none) :
    eqStep klog kexp resid shock t (passFold klog kexp resid shock t pre S) eq =
      passFold klog kexp resid shock t pre S ∧
    passFold klog kexp resid shock t (pre ++ eq :: post) S =
      passFold klog kexp resid shock t post
        (passFold klog kexp resid shock t pre S) := by
  have hstep : eqStep klog kexp resid shock t
      (passFold klog kexp resid shock t pre S) eq =
      passFold klog kexp resid shock t pre S := by
    unfold eqStep
    rw [h]
  refine ⟨hstep, ?_⟩
  unfold passFold at hstep ⊢
  rw [List.foldl_append, List.foldl_cons, hstep]

/-- The in-pass state at the start of a pass over `frameD` at `t = 1`. -/
def stD : FState ℚ := ⟨frameD, initV frameD 1, 0⟩

/-- Witness for `c7_exception_skips`: an RHS referencing the unknown variable
`MISSING` raises a `KeyError`; the pass skips the equation and the remaining
equation still runs. -/
theorem c7_witness :
    evalP (fun x : ℚ => x) (fun x : ℚ => x)
      (passFold (fun x : ℚ => x) (fun x : ℚ => x) (fun _ _ => none) false 1
        [] stD).v
      (passFold (fun x : ℚ => x) (fun x : ℚ => x) (fun _ _ => none) false 1
        [] stD).frame 1 (PExpr.pvar "MISSING") = none ∧
    passFold (fun x : ℚ => x) (fun x : ℚ => x) (fun _ _ => none) false 1
      ([] ++ ⟨"Y", PExpr.pvar "MISSING"⟩ ::
        [⟨"CONS/CONS(-1)", PExpr.lit (21 / 20)⟩]) stD =
      passFold (fun x : ℚ => x) (fun x : ℚ => x) (fun _ _ => none) false 1
        [⟨"CONS/CONS(-1)", PExpr.lit (21 / 20)⟩]
        (passFold (fun x : ℚ => x) (fun x : ℚ => x) (fun _ _ => none) false 1
          [] stD) := by
  have h : evalP (fun x : ℚ => x) (fun x : ℚ => x)
      (passFold (fun x : ℚ => x) (fun x : ℚ => x) (fun _ _ => none) false 1
        [] stD).v
      (passFold (fun x : ℚ => x) (fun x : ℚ => x) (fun _ _ => none) false 1
        [] stD).frame 1 (PExpr.pvar "MISSING") = none := by decide
  exact ⟨h, (c7_exception_skips (fun x : ℚ => x) (fun x : ℚ => x)
    (fun _ _ => none) false 1 []
    [⟨"CONS/CONS(-1)", PExpr.lit (21 / 20)⟩]
    ⟨"Y", PExpr.pvar "MISSING"⟩ stD h).2⟩

omit [LinearOrderedField K] in
theorem fget_num_bounds (B : Frame K) (var : String) (t : Int) (x : K)
    (h : fget B var t = Val.num x) :
    var ∈ B.cols ∧ 0 ≤ t ∧ t < (B.n : Int) := by
  by_contra hc
  unfold fget at h
  rw [if_neg hc] at h
  cases h

omit [LinearOrderedField K] in
theorem fget_fset_self (B : Frame K) (var : String) (t : Int) (x : Val K)
    (h1 : var ∈ B.cols) (h2 : 0 ≤ t) (h3 : t < (B.n : Int)) :
    fget (fset B var t x) var t = x := by
  unfold fget fset
  simp [h1, h2, h3]

/-- C1: for a behavioral equation with a computed calibration residual stored
at `(var, t)`, running its solve-period step in non-shock mode against the
baseline frame (all variables the equation reads at their baseline values)
commits exactly the original historical value of `var` at `t` — and when the
residual is nonzero, the bare equation without the residual predicts a
different value. -/
theorem c1_residual_reproduces (klog kexp : K → K)
    (resid : String → Int → Option K) (B : Frame K) (eq : FEq) (t : Int)
    (r mc : K)
    (_hbeh : behavioral eq.lhs = true)
    (hres : residualAt klog kexp B eq t = some r)
    (hstore : resid (extractLhsVar eq.lhs) t = some r) :
    fget (eqStep klog kexp resid false t ⟨B, initV B t, mc⟩ eq).frame
        (extractLhsVar eq.lhs) t = fget B (extractLhsVar eq.lhs) t ∧
    (r ≠ 0 →
      rawNewVal kexp eq.lhs
        ((evalP klog kexp (initV B t) B t eq.rhs).getD Val.nan)
        (flag B (extractLhsVar eq.lhs) 1 t) ≠
      fget B (extractLhsVar eq.lhs) t) := by
  unfold residualAt at hres
  cases heval : evalP klog kexp (initV B t) B t eq.rhs with
  | none => rw [heval] at hres; cases hres
  | some rhsv =>
    rw [heval] at hres
    simp only at hres
    by_cases hfin : (fget B (extractLhsVar eq.lhs) t).isfinite = true ∧
        (rawNewVal kexp eq.lhs rhsv
          (flag B (extractLhsVar eq.lhs) 1 t)).isfinite = true
    · rw [if_pos hfin] at hres
      cases hA : fget B (extractLhsVar eq.lhs) t with
      | nan => rw [hA] at hfin; exact absurd hfin.1 (by simp [Val.isfinite])
      | num a =>
        cases hP : rawNewVal kexp eq.lhs rhsv
            (flag B (extractLhsVar eq.lhs) 1 t) with
        | nan => rw [hP] at hfin; exact absurd hfin.2 (by simp [Val.isfinite])
        | num p =>
          rw [hA, hP] at hres
          simp only [Val.toRd, Option.some.injEq] at hres
          obtain ⟨hcols, ht0, htn⟩ :=
            fget_num_bounds B (extractLhsVar eq.lhs) t a hA
          constructor
          · unfold eqStep
            rw [show (⟨B, initV B t, mc⟩ : FState K).v = initV B t from rfl,
              show (⟨B, initV B t, mc⟩ : FState K).frame = B from rfl, heval]
            simp only [hP, Val.isfinite, Bool.false_eq_true, if_false,
              if_true, hstore, Option.getD_some, Val.addK, if_pos hcols]
            have hval : p + r = a := by rw [← hres]; ring
            rw [hval, fget_fset_self B _ t _ hcols ht0 htn]
          · intro hr
            simp only [Option.getD_some, hP]
            intro hcontra
            injection hcontra with hpa
            exact hr (by rw [← hres, hpa]; ring)
    · rw [if_neg hfin] at hres
      cases hres

/-- Witness for `c1_residual_reproduces`: the d-form equation
`d(CONS) = 2` over `frameD` (`CONS[0] = 40`, `CONS[1] = 10`) predicts `42`,
so the stored residual is `-32`; the non-shock step reproduces the
historical `CONS[1] = 10` while the bare equation predicts a different
value. -/
theorem c1_witness :
    behavioral "d(CONS)" = true ∧
    residualAt (fun x : ℚ => x) (fun x : ℚ => x) frameD
      ⟨"d(CONS)", PExpr.lit 2⟩ 1 = some (-32) ∧
    fget (eqStep (fun x : ℚ => x) (fun x : ℚ => x)
        (fun w u => if w = "CONS" ∧ u = 1 then some (-32) else none) false 1
        ⟨frameD, initV frameD 1, 0⟩ ⟨"d(CONS)", PExpr.lit 2⟩).frame
      (extractLhsVar "d(CONS)") 1 = fget frameD (extractLhsVar "d(CONS)") 1 ∧
    rawNewVal (fun x : ℚ => x) "d(CONS)"
      ((evalP (fun x : ℚ => x) (fun x : ℚ => x) (initV frameD 1) frameD 1
        (PExpr.lit 2)).getD Val.nan)
      (flag frameD (extractLhsVar "d(CONS)") 1 1) ≠
      fget frameD (extractLhsVar "d(CONS)") 1 := by
  have hex : extractLhsVar "d(CONS)" = "CONS" := by decide
  have hsub : hasSub "d(CONS)" "/" = false := by decide
  have hdlog : startsDlog "d(CONS)" = false := by decide
  have hd : startsD "d(CONS)" = true := by decide
  have h1 : behavioral "d(CONS)" = true := by decide
  have h2 : residualAt (fun x : ℚ => x) (fun x : ℚ => x) frameD
      ⟨"d(CONS)", PExpr.lit 2⟩ 1 = some (-32) := by
    norm_num [residualAt, evalP, rawNewVal, hex, hsub, hdlog, hd, flag, fget,
      frameD, initV, Val.isfinite, Val.add, Val.toRd]
  have h3 : (fun w u => if w = "CONS" ∧ u = 1 then some ((-32 : ℚ)) else none)
      (extractLhsVar "d(CONS)") 1 = some (-32) := by
    rw [hex]; simp
  have h := c1_residual_reproduces (fun x : ℚ => x) (fun x : ℚ => x)
    (fun w u => if w = "CONS" ∧ u = 1 then some (-32) else none) frameD
    ⟨"d(CONS)", PExpr.lit 2⟩ 1 (-32) 0 h1 h2 h3
  exact ⟨h1, h2, h.1, h.2 (by norm_num)⟩

/-! ## Claim C10: `parse_equation` and the equation-type tag

`EViewsTranspiler.parse_equation` (transpiler.py).  The record mirrors
`ParsedEquation` except `python_expr`: the transpiled RHS is modelled
separately by the convert functions and the `PExpr` evaluator. -/

/-- A parsed model equation (without the transpiled `python_expr`). -/
structure ParsedEqn where
  lhs : String
  rhs : String
  original : String
  equation_type : String
deriving DecidableEq

/-- The EViews comment character (an apostrophe). -/
def quoteCh : Char := Char.ofNat 39

/-- Python `str.upper()` on one ASCII character. -/
def upperCh (c : Char) : Char :=
  if 'a' ≤ c ∧ c ≤ 'z' then Char.ofNat (c.toNat - 32) else c

/-- Python `str.upper()` on character lists. -/
def upperL (cs : List Char) : List Char := cs.map upperCh

/-- Python `line.split("=", 1)`: the pieces before and after the first `=`
(`none` when there is no `=`). -/
def splitFirstEq : List Char → Option (List Char × List Char)
  | [] => none
  | c :: rest =>
    if c = '=' then some ([], rest)
    else (splitFirstEq rest).map (fun p => (c :: p.1, p.2))

/-- The tail of `parse_equation` on the comment-stripped line `l2`: require
an `=`; drop `@ADD` directives; split on the first `=`; tag by `"/" in lhs`,
else by `"dlog(" in line.lower() or "d(" in rhs.lower()`, else identity. -/
def parseAfterStrip (l2 : List Char) : Option ParsedEqn :=
  if l2 = [] then none
  else if containsChL l2 '=' = false then none
  else if hasSubL (upperL l2) "@ADD".data then none
  else
    match splitFirstEq l2 with
    | none => none
    | some (lh, rh) =>
      some ⟨⟨trimL lh⟩, ⟨trimL rh⟩, ⟨l2⟩,
        if containsChL (trimL lh) '/' then "growth_rate"
        else if hasSubL (lowerL l2) "dlog(".data ||
            hasSubL (lowerL (trimL rh)) "d(".data then "ecm"
        else "identity"⟩

/-- `EViewsTranspiler.parse_equation(line)`: strip; drop blank and comment
lines; strip any inline comment; then `parseAfterStrip`. -/
def parse_equation (line : String) : Option ParsedEqn :=
  let l := trimL line.data
  if l = [] then none
  else if startsWithL l [quoteCh] then none
  else parseAfterStrip
    (if containsChL l quoteCh then trimL (l.takeWhile (fun c => c ≠ quoteCh))
     else l)

/-- The claim-side tag: determined by the LHS syntactic form alone. -/
def claimTag (lhs : String) : String :=
  if containsChL lhs.data '/' then "growth_rate"
  else if startsDlog lhs || startsD lhs then "ecm"
  else "identity"

/-- C10 counterexample: the tag is not determined by the LHS alone.
`d(CONS) = RGDP` has a d-form LHS (claim: ECM) but is tagged `identity`
(the code looks for `dlog(` in the whole line and `d(` only in the RHS);
`Y = X + d(Z)` has a bare-variable LHS (claim: identity) but is tagged
`ecm` because its RHS mentions `d(`. -/
theorem c10_counterexample :
    (parse_equation "d(CONS) = RGDP").map ParsedEqn.equation_type =
      some "identity" ∧
    (parse_equation "d(CONS) = RGDP").map ParsedEqn.lhs = some "d(CONS)" ∧
    claimTag "d(CONS)" = "ecm" ∧
    (parse_equation "Y = X + d(Z)").map ParsedEqn.equation_type = some "ecm" ∧
    (parse_equation "Y = X + d(Z)").map ParsedEqn.lhs = some "Y" ∧
    claimTag "Y" = "identity" := by
  refine ⟨?_, ?_, ?_, ?_, ?_, ?_⟩ <;> decide

omit [LinearOrderedField K] in
theorem fget_fset_other (F : Frame K) (var name : String) (t u : Int)
    (x : Val K) (h : name ≠ var) :
    fget (fset F var t x) name u = fget F name u := by
  unfold fget fset
  simp [h]

/-- The equation step reads and writes exactly one named variable, derived
from the LHS alone: every other name is untouched in both the frame and the
context dict. -/
theorem eqStep_only_lhs (klog kexp : K → K) (resid : String → Int → Option K)
    (shock : Bool) (t : Int) (S : FState K) (fe : FEq) (name : String)
    (hne : name ≠ extractLhsVar fe.lhs) :
    (∀ u, fget (eqStep klog kexp resid shock t S fe).frame name u =
      fget S.frame name u) ∧
    (eqStep klog kexp resid shock t S fe).v name = S.v name := by
  unfold eqStep
  cases evalP klog kexp S.v S.frame t fe.rhs with
  | none => exact ⟨fun u => rfl, rfl⟩
  | some rhsv =>
    refine ⟨fun u => ?_, ?_⟩ <;>
      by_cases hf : (rawNewVal kexp fe.lhs rhsv
        (flag S.frame (extractLhsVar fe.lhs) 1 t)).isfinite = true <;>
      by_cases hc : extractLhsVar fe.lhs ∈ S.frame.cols <;>
      simp [hf, hc, hne, fget_fset_other]

/-- C10 (amended): the equation-type tag is `growth_rate` exactly when the
(stripped) LHS contains `/`; otherwise it is `ecm` exactly when the whole
line contains `dlog(` or the RHS contains `d(` (case-insensitively) — so a
d-form LHS with a plain RHS is tagged `identity`, and a bare LHS whose RHS
mentions `d(` is tagged `ecm`: the tag is not a function of the LHS alone.
The solver-side update rule, however, is: the equation step reads its target
from the LHS only and touches no other variable. -/
theorem c10_amended :
    (∀ (line : String) (eq : ParsedEqn), parse_equation line = some eq →
      (containsChL eq.lhs.data '/' = true →
        eq.equation_type = "growth_rate") ∧
      (containsChL eq.lhs.data '/' = false →
        (hasSubL (lowerL eq.original.data) "dlog(".data ||
          hasSubL (lowerL eq.rhs.data) "d(".data) = true →
        eq.equation_type = "ecm") ∧
      (containsChL eq.lhs.data '/' = false →
        (hasSubL (lowerL eq.original.data) "dlog(".data ||
          hasSubL (lowerL eq.rhs.data) "d(".data) = false →
        eq.equation_type = "identity")) ∧
    ∀ (klog kexp : K → K) (resid : String → Int → Option K) (shock : Bool)
      (t : Int) (S : FState K) (fe : FEq) (name : String),
      name ≠ extractLhsVar fe.lhs →
      (∀ u, fget (eqStep klog kexp resid shock t S fe).frame name u =
        fget S.frame name u) ∧
      (eqStep klog kexp resid shock t S fe).v name = S.v name := by
  constructor
  · intro line eq h
    simp only [parse_equation] at h
    split at h
    · cases h
    · split at h
      · cases h
      · revert h
        generalize (if containsChL (trimL line.data) quoteCh = true then
          trimL (List.takeWhile (fun c => decide (c ≠ quoteCh))
            (trimL line.data)) else trimL line.data) = l2
        intro h
        unfold parseAfterStrip at h
        split at h
        · cases h
        · split at h
          · cases h
          · split at h
            · cases h
            · split at h
              · cases h
              · rename_i lh rh _
                injection h with h2
                subst h2
                refine ⟨fun hc => ?_, fun hc hd => ?_, fun hc hd => ?_⟩
                · exact if_pos hc
                · rw [if_neg (by simp_all), if_pos]
                  simpa using hd
                · rw [if_neg (by simp_all), if_neg]
                  simpa using hd
  · exact eqStep_only_lhs

/-- Witness for `c10_amended`: a ratio-form line is tagged `growth_rate`, and
the equation step for `d(CONS) = 2` leaves the unrelated variable `GDPM`
untouched. -/
theorem c10_witness :
    parse_equation "CONS/CONS(-1) = RGDP" =
      some ⟨"CONS/CONS(-1)", "RGDP", "CONS/CONS(-1) = RGDP", "growth_rate"⟩ ∧
    (⟨"CONS/CONS(-1)", "RGDP", "CONS/CONS(-1) = RGDP", "growth_rate"⟩ :
      ParsedEqn).equation_type = "growth_rate" ∧
    fget (eqStep (fun x : ℚ => x) (fun x : ℚ => x) (fun _ _ => none) false 1
      stD ⟨"d(CONS)", PExpr.lit 2⟩).frame "GDPM" 0 = fget stD.frame "GDPM" 0 := by
  have h := @c10_amended ℚ _
  have hp : parse_equation "CONS/CONS(-1) = RGDP" =
      some ⟨"CONS/CONS(-1)", "RGDP", "CONS/CONS(-1) = RGDP", "growth_rate"⟩ := by
    decide
  refine ⟨hp, (h.1 "CONS/CONS(-1) = RGDP" _ hp).1 (by decide), ?_⟩
  exact (h.2 (fun x : ℚ => x) (fun x : ℚ => x) (fun _ _ => none) false 1 stD
    ⟨"d(CONS)", PExpr.lit 2⟩ "GDPM" (by decide)).1 0

/-! ## Claim C5: the `dlog` transpilation

`EViewsTranspiler._convert_dlog` and `_convert_lags_simple`
(transpiler.py), embedded as character-list scanners with `re.sub`
left-to-right, non-overlapping semantics. -/

/-- Regex word class `\w` (ASCII): `[A-Za-z0-9_]`. -/
def wordCh (c : Char) : Bool := isRunCh c ∨ (97 ≤ c.toNat ∧ c.toNat ≤ 122)

/-- Maximal run of `[A-Z0-9_]` characters (greedy `[A-Z0-9_]*`). -/
def takeRun : List Char → List Char × List Char
  | [] => ([], [])
  | c :: cs =>
    if isRunCh c then
      let p := takeRun cs
      (c :: p.1, p.2)
    else ([], c :: cs)

/-- Maximal run of digits (greedy `\d+` body). -/
def takeDigits : List Char → List Char × List Char
  | [] => ([], [])
  | c :: cs =>
    if isDigitCh c then
      let p := takeDigits cs
      (c :: p.1, p.2)
    else ([], c :: cs)

/-- Python `int()` on a digit string. -/
def digitsToNat (cs : List Char) : Nat :=
  cs.foldl (fun n c => n * 10 + (c.toNat - 48)) 0

/-- Decimal digits of a natural number (fuel-structural). -/
def natToCharsAux : Nat → Nat → List Char
  | 0, _ => []
  | fuel + 1, n =>
    if n = 0 then []
    else natToCharsAux fuel (n / 10) ++ [Char.ofNat (48 + n % 10)]

/-- Decimal rendering of a natural number (Python `str`). -/
def natToChars (n : Nat) : List Char :=
  if n = 0 then ['0'] else natToCharsAux n n

/-- Decimal rendering of an integer (Python f-string `{total}`). -/
def intToChars (T : Int) : List Char :=
  if T < 0 then '-' :: natToChars T.natAbs else natToChars T.toNat

/-- The replacement text `v['NAME']`. -/
def vChunk (name : List Char) : List Char :=
  'v' :: '[' :: quoteCh :: name ++ quoteCh :: [']']

/-- The replacement text `_lag('NAME', T)`. -/
def lagChunk (name : List Char) (T : Int) : List Char :=
  '_' :: 'l' :: 'a' :: 'g' :: '(' :: quoteCh :: name ++
    quoteCh :: ',' :: ' ' :: intToChars T ++ [')']

/-- The pattern-1 replacement (`_convert_lags_simple`, explicit lags):
`total_lag = -int(group2) + lag`; `v['VAR']` when zero, else
`_lag('VAR', total_lag)`. -/
def repl1 (L : Int) (name : List Char) (g2 : Int) : List Char :=
  if -g2 + L = 0 then vChunk name else lagChunk name (-g2 + L)

/-- The pattern-2 replacement (`_convert_lags_simple`, bare variables):
`NP`/`Q` are left as-is; else `v['VAR']` when `lag == 0`, else
`_lag('VAR', lag)`. -/
def repl2 (L : Int) (name : List Char) : List Char :=
  if name = "NP".data ∨ name = "Q".data then name
  else if L = 0 then vChunk name else lagChunk name L

/-- Match the pattern `([A-Z][A-Z0-9_]*)\((-?\d+)\)` at the current
position; returns (group 1, `int(group 2)`, the rest).  Maximal-munch is
faithful: the name class and `(` are disjoint, so regex backtracking over the
name never succeeds. -/
def negSplit : List Char → Bool × List Char
  | '-' :: rr => (true, rr)
  | cs => (false, cs)

def matchLagRef : List Char → Option (List Char × Int × List Char)
  | [] => none
  | c :: rest =>
    if isUpperCh c then
      let p := takeRun rest
      match p.2 with
      | '(' :: rest2 =>
        let q := negSplit rest2
        let r := takeDigits q.2
        if r.1 = [] then none
        else
          match r.2 with
          | ')' :: rest5 =>
            some (c :: p.1,
              if q.1 then -(digitsToNat r.1 : Int) else (digitsToNat r.1 : Int),
              rest5)
          | _ => none
      | _ => none
    else none

omit [LinearOrderedField K] in
theorem takeRun_len (cs : List Char) :
    (takeRun cs).1.length + (takeRun cs).2.length = cs.length := by
  induction cs with
  | nil => rfl
  | cons c cs ih =>
    by_cases h : isRunCh c = true <;> simp [takeRun, h] <;> try omega

omit [LinearOrderedField K] in
theorem takeDigits_len (cs : List Char) :
    (takeDigits cs).1.length + (takeDigits cs).2.length = cs.length := by
  induction cs with
  | nil => rfl
  | cons c cs ih =>
    by_cases h : isDigitCh c = true <;> simp [takeDigits, h] <;> try omega

omit [LinearOrderedField K] in
theorem negSplit_len (cs : List Char) : (negSplit cs).2.length ≤ cs.length := by
  cases cs with
  | nil => simp [negSplit]
  | cons c cc =>
    by_cases h : c = '-'
    · subst h; simp [negSplit]
    · cases c
      simp only [negSplit]
      split <;> simp_all

omit [LinearOrderedField K] in
theorem matchLagRef_rest_lt (l : List Char) (n : List Char) (g : Int)
    (rest : List Char) (h : matchLagRef l = some (n, g, rest)) :
    rest.length < l.length := by
  cases l with
  | nil => simp [matchLagRef] at h
  | cons c cs =>
    simp only [matchLagRef] at h
    split at h
    · split at h
      · rename_i rest2 heq
        split at h
        · cases h
        · split at h
          · rename_i rest5 heq5
            injection h with h1
            have h2 : rest5 = rest := by
              have := congrArg (fun p : List Char × Int × List Char => p.2.2) h1
              simpa using this
            subst h2
            have e1 := takeRun_len cs
            have e2 : (takeRun cs).2.length = rest2.length + 1 := by
              rw [heq]; simp
            have e3 := negSplit_len rest2
            have e4 := takeDigits_len (negSplit rest2).2
            have e5 : (takeDigits (negSplit rest2).2).2.length =
                rest5.length + 1 := by
              rw [heq5]; simp
            simp only [List.length_cons]
            omega
          · cases h
      · cases h
    · cases h

/-- `re.sub` of pattern 1 (`VAR(-n)` explicit lags): scan left to right,
replace non-overlapping matches, leave other characters untouched. -/
def sub1 (L : Int) : List Char → List Char
  | [] => []
  | c :: cs =>
    match hm : matchLagRef (c :: cs) with
    | some p => repl1 L p.1 p.2.1 ++ sub1 L p.2.2
    | none => c :: sub1 L cs
termination_by cs => cs.length
decreasing_by
  · exact Nat.lt_of_lt_of_le
      (matchLagRef_rest_lt (c :: cs) p.1 p.2.1 p.2.2 hm) (by simp)
  · simp

/-- Head character is a word character (`\b` test helper). -/
def headIsWord : List Char → Bool
  | [] => false
  | c :: _ => wordCh c

/-- Head character is `(` or `[` (the lookahead class `[\(\[]`). -/
def headIsParenBracket : List Char → Bool
  | [] => false
  | c :: _ => c = '(' ∨ c = '['

/-- Match the bare-variable pattern
`\b([A-Z][A-Z0-9_]*)\b(?!\s*[\(\[]|\')` at the current position (the leading
`\b` is the caller's prevWord state).  Regex backtracking to a shorter name
always fails the inner `\b`, so maximal-munch plus the three lookahead tests
is faithful. -/
def matchBare : List Char → Option (List Char × List Char)
  | [] => none
  | c :: rest =>
    if isUpperCh c then
      let p := takeRun rest
      if headIsWord p.2 then none
      else if startsWithL p.2 [quoteCh] then none
      else if headIsParenBracket (p.2.dropWhile isSpaceCh) then none
      else some (c :: p.1, p.2)
    else none

omit [LinearOrderedField K] in
theorem matchBare_rest_lt (l : List Char) (n rest : List Char)
    (h : matchBare l = some (n, rest)) : rest.length < l.length := by
  cases l with
  | nil => simp [matchBare] at h
  | cons c cs =>
    simp only [matchBare] at h
    split at h
    · split at h
      · cases h
      · split at h
        · cases h
        · split at h
          · cases h
          · injection h with h1
            have h2 : (takeRun cs).2 = rest := by
              have := congrArg (fun p : List Char × List Char => p.2) h1
              simpa using this
            have e1 := takeRun_len cs
            rw [h2] at e1
            simp only [List.length_cons]
            omega
    · cases h

/-- `re.sub` of pattern 2 (bare variables): scan left to right with the
word-boundary state `prevW` (whether the previous character was a word
character); a match is attempted only at a boundary. -/
def sub2 (L : Int) : Bool → List Char → List Char
  | _, [] => []
  | true, c :: cs => c :: sub2 L (wordCh c) cs
  | false, c :: cs =>
    match hm : matchBare (c :: cs) with
    | some p => repl2 L p.1 ++ sub2 L true p.2
    | none => c :: sub2 L (wordCh c) cs
termination_by _ cs => cs.length
decreasing_by
  · simp
  · exact Nat.lt_of_lt_of_le (matchBare_rest_lt (c :: cs) p.1 p.2 hm) (by simp)
  · simp

/-- `EViewsTranspiler._convert_lags_simple(s, lag)`: pattern 1 (explicit
lags) then pattern 2 (bare variables) on the result. -/
def convertLagsSimpleL (cs : List Char) (L : Int) : List Char :=
  sub2 L false (sub1 L cs)

/-- String-level `_convert_lags_simple`. -/
def convertLagsSimple (s : String) (L : Int) : String :=
  ⟨convertLagsSimpleL s.data L⟩

/-- `EViewsTranspiler._extract_balanced_parens`, on the characters after the
opening parenthesis, carrying the depth and the content accumulator; on an
unbalanced exhaustion Python returns `s[start+1 : len-1]`, i.e. the
accumulator minus its last character. -/
def extractBalAux : List Char → Nat → List Char → List Char × List Char
  | [], _, acc => (acc.dropLast, [])
  | c :: rest, d, acc =>
    if c = ')' then
      if d = 1 then (acc, rest) else extractBalAux rest (d - 1) (acc ++ [c])
    else if c = '(' then extractBalAux rest (d + 1) (acc ++ [c])
    else extractBalAux rest d (acc ++ [c])

omit [LinearOrderedField K] in
theorem extractBalAux_rest_le (cs : List Char) :
    ∀ (d : Nat) (acc : List Char),
      (extractBalAux cs d acc).2.length ≤ cs.length := by
  induction cs with
  | nil => intro d acc; simp [extractBalAux]
  | cons c rest ih =>
    intro d acc
    simp only [extractBalAux]
    split
    · split
      · simp
      · exact Nat.le_trans (ih _ _) (by simp)
    · split
      · exact Nat.le_trans (ih _ _) (by simp)
      · exact Nat.le_trans (ih _ _) (by simp)

/-- `EViewsTranspiler._convert_dlog`: scan for `dlog(` (case-insensitively),
extract the balanced content, and expand to
`(np.log(current) - np.log(lagged))` via `_convert_lags_simple` with lags 0
and 1; the scan resumes after the closing parenthesis.  (`lowerCh c4 = '('`
iff `c4 = '('`, since `lower` only moves letters.) -/
def convertDlogL : List Char → List Char
  | c0 :: c1 :: c2 :: c3 :: c4 :: rest =>
    if lowerCh c0 = 'd' ∧ lowerCh c1 = 'l' ∧ lowerCh c2 = 'o' ∧
        lowerCh c3 = 'g' ∧ c4 = '(' then
      let p := extractBalAux rest 1 []
      "(np.log(".data ++ convertLagsSimpleL p.1 0 ++
        ") - np.log(".data ++ convertLagsSimpleL p.1 1 ++ "))".data ++
        convertDlogL p.2
    else c0 :: convertDlogL (c1 :: c2 :: c3 :: c4 :: rest)
  | cs => cs
termination_by cs => cs.length
decreasing_by
  · exact Nat.lt_of_le_of_lt (extractBalAux_rest_le rest 1 [])
      (by simp only [List.length_cons]; omega)
  · simp

/-- String-level `_convert_dlog`. -/
def convertDlog (s : String) : String := ⟨convertDlogL s.data⟩

/-! ### The EViews sub-expression grammar for the dlog theorem

`EvTerm` ranges over the sub-expressions that can appear inside `dlog(...)`:
bare variables, explicitly lagged variables `VAR(-d)`, integer literals, the
four binary operators, and parenthesized groups.  `renderEv` prints the
EViews text, `midEv` is the text after pattern 1 (explicit lags replaced),
`pyEv` the text after both patterns — the claimed expansion. -/

inductive EvTerm where
  | evar (n : List Char)
  | elag (n : List Char) (d : List Char)
  | enum (d : List Char)
  | ebin (op : Char) (a b : EvTerm)
  | epar (a : EvTerm)
deriving DecidableEq

/-- A valid variable name as a character list: `[A-Z][A-Z0-9_]*`. -/
def validNameL (n : List Char) : Bool :=
  match n with
  | [] => false
  | c :: cs => isUpperCh c && cs.all isRunCh

/-- The four EViews binary operator characters. -/
def isOpCh (c : Char) : Bool := c = '+' ∨ c = '-' ∨ c = '*' ∨ c = '/'

/-- Well-formedness: valid names (bare names not the reserved `NP`/`Q`,
which the transpiler deliberately leaves untouched), nonempty digit strings,
real operators. -/
def wfEv : EvTerm → Bool
  | .evar n => validNameL n && !(n = "NP".data) && !(n = "Q".data)
  | .elag n d => validNameL n && !(d = []) && d.all isDigitCh
  | .enum d => !(d = []) && d.all isDigitCh
  | .ebin op a b => isOpCh op && wfEv a && wfEv b
  | .epar a => wfEv a

/-- The EViews source text of a sub-expression. -/
def renderEv : EvTerm → List Char
  | .evar n => n
  | .elag n d => n ++ '(' :: '-' :: (d ++ [')'])
  | .enum d => d
  | .ebin op a b => renderEv a ++ op :: renderEv b
  | .epar a => '(' :: (renderEv a ++ [')'])

/-- The text after pattern 1: explicit lags `VAR(-d)` replaced by
`repl1` (`_lag('VAR', d + lag)` or `v['VAR']`). -/
def midEv (L : Int) : EvTerm → List Char
  | .evar n => n
  | .elag n d => repl1 L n (-(digitsToNat d : Int))
  | .enum d => d
  | .ebin op a b => midEv L a ++ op :: midEv L b
  | .epar a => '(' :: (midEv L a ++ [')'])

/-- The text after both patterns: additionally every bare variable replaced
by `repl2` (`v['VAR']` for lag 0, `_lag('VAR', lag)` otherwise). -/
def pyEv (L : Int) : EvTerm → List Char
  | .evar n => repl2 L n
  | .elag n d => repl1 L n (-(digitsToNat d : Int))
  | .enum d => d
  | .ebin op a b => pyEv L a ++ op :: pyEv L b
  | .epar a => '(' :: (pyEv L a ++ [')'])

/-- Continuations that follow a sub-expression inside the scan: nothing, a
closing parenthesis, or a binary operator. -/
def tailOK : List Char → Bool
  | [] => true
  | c :: _ => c = ')' ∨ isOpCh c

omit [LinearOrderedField K] in
theorem takeRun_append (xs ys : List Char) (h1 : xs.all isRunCh = true)
    (h2 : ∀ c, ys.head? = some c → isRunCh c = false) :
    takeRun (xs ++ ys) = (xs, ys) := by
  induction xs with
  | nil =>
    cases ys with
    | nil => rfl
    | cons c cc => simp [takeRun, h2 c rfl]
  | cons x xs ih =>
    simp only [List.all_cons, Bool.and_eq_true] at h1
    simp [takeRun, h1.1, ih h1.2]

omit [LinearOrderedField K] in
theorem takeDigits_append (xs ys : List Char) (h1 : xs.all isDigitCh = true)
    (h2 : ∀ c, ys.head? = some c → isDigitCh c = false) :
    takeDigits (xs ++ ys) = (xs, ys) := by
  induction xs with
  | nil =>
    cases ys with
    | nil => rfl
    | cons c cc => simp [takeDigits, h2 c rfl]
  | cons x xs ih =>
    simp only [List.all_cons, Bool.and_eq_true] at h1
    simp [takeDigits, h1.1, ih h1.2]

omit [LinearOrderedField K] in
theorem tailOK_head (t : List Char) (h : tailOK t = true) :
    ∀ c, t.head? = some c → isRunCh c = false ∧ c ≠ '(' ∧ wordCh c = false ∧
      c ≠ quoteCh ∧ isSpaceCh c = false ∧ c ≠ '[' ∧ isUpperCh c = false := by
  intro c hc
  cases t with
  | nil => cases hc
  | cons b bs =>
    injection hc with hb
    subst hb
    simp only [tailOK, isOpCh, decide_eq_true_eq] at h
    rcases h with h | h | h | h | h <;> subst h <;>
      refine ⟨by decide, by decide, by decide, by decide, by decide,
        by decide, by decide⟩

theorem matchLagRef_cons_notupper (c : Char) (cs : List Char)
    (h : isUpperCh c = false) : matchLagRef (c :: cs) = none := by
  simp [matchLagRef, h]

theorem sub1_cons_notupper (L : Int) (c : Char) (cs : List Char)
    (h : isUpperCh c = false) : sub1 L (c :: cs) = c :: sub1 L cs := by
  rw [sub1]
  split
  · rename_i p hp
    rw [matchLagRef_cons_notupper c cs h] at hp
    cases hp
  · rfl

theorem sub1_nil (L : Int) : sub1 L [] = [] := by rw [sub1]

theorem sub1_cons_match (L : Int) (c : Char) (cs : List Char)
    (p : List Char × Int × List Char)
    (h : matchLagRef (c :: cs) = some p) :
    sub1 L (c :: cs) = repl1 L p.1 p.2.1 ++ sub1 L p.2.2 := by
  rw [sub1]
  split
  · rename_i q hq
    rw [h] at hq
    injection hq with hq2
    subst hq2
    rfl
  · rename_i hq
    rw [h] at hq
    cases hq

theorem sub1_cons_nomatch (L : Int) (c : Char) (cs : List Char)
    (h : matchLagRef (c :: cs) = none) : sub1 L (c :: cs) = c :: sub1 L cs := by
  rw [sub1]
  split
  · rename_i p hp
    rw [h] at hp
    cases hp
  · rfl

theorem isOpCh_not_upper (c : Char) (h : isOpCh c = true) :
    isUpperCh c = false := by
  simp only [isOpCh, decide_eq_true_eq] at h
  rcases h with h | h | h | h <;> subst h <;> decide

theorem validName_all (n : List Char) (h : validNameL n = true) :
    n.all isRunCh = true := by
  cases n with
  | nil => cases h
  | cons c cs =>
    simp only [validNameL, Bool.and_eq_true] at h
    simp only [List.all_cons, Bool.and_eq_true]
    refine ⟨?_, h.2⟩
    simp only [isRunCh, decide_eq_true_eq]
    exact Or.inl h.1

theorem digits_all_run (d : List Char) (h : d.all isDigitCh = true) :
    d.all isRunCh = true := by
  rw [List.all_eq_true] at h ⊢
  intro c hc
  simp only [isRunCh, decide_eq_true_eq]
  exact Or.inr (Or.inl (h c hc))

theorem sub1_run (L : Int) :
    ∀ (run tail : List Char), run.all isRunCh = true →
      (∀ c, tail.head? = some c → isRunCh c = false ∧ c ≠ '(') →
      sub1 L (run ++ tail) = run ++ sub1 L tail := by
  intro run
  induction run with
  | nil => intro tail _ _; simp
  | cons c cs ih =>
    intro tail hall htail
    simp only [List.all_cons, Bool.and_eq_true] at hall
    have hstep : sub1 L (c :: (cs ++ tail)) = c :: sub1 L (cs ++ tail) := by
      by_cases hu : isUpperCh c = true
      · refine sub1_cons_nomatch L c (cs ++ tail) ?_
        simp only [matchLagRef, if_pos hu]
        rw [takeRun_append cs tail hall.2 (fun b hb => (htail b hb).1)]
        cases tail with
        | nil => rfl
        | cons b bs =>
          split
          · rename_i rest2 heq
            injection heq with h1 h2
            exact absurd h1 ((htail b rfl).2)
          · rfl
      · exact sub1_cons_nomatch L c (cs ++ tail)
          (matchLagRef_cons_notupper c (cs ++ tail)
            (Bool.not_eq_true _ ▸ hu))
    rw [List.cons_append, hstep, ih tail hall.2 htail]
    rfl

theorem matchLagRef_render (n d tail : List Char)
    (hn : validNameL n = true) (hd1 : d ≠ []) (hd2 : d.all isDigitCh = true) :
    matchLagRef (n ++ '(' :: '-' :: (d ++ ')' :: tail)) =
      some (n, -(digitsToNat d : Int), tail) := by
  cases n with
  | nil => cases hn
  | cons c cs =>
    simp only [validNameL, Bool.and_eq_true] at hn
    simp only [List.cons_append, matchLagRef, if_pos hn.1]
    rw [takeRun_append cs ('(' :: '-' :: (d ++ ')' :: tail)) hn.2
      (fun b hb => by injection hb with h; subst h; decide)]
    simp only [negSplit]
    rw [takeDigits_append d (')' :: tail) hd2
      (fun b hb => by injection hb with h; subst h; decide)]
    simp [hd1]

theorem sub1_match (L : Int) (l : List Char) (p : List Char × Int × List Char)
    (h : matchLagRef l = some p) :
    sub1 L l = repl1 L p.1 p.2.1 ++ sub1 L p.2.2 := by
  cases l with
  | nil => simp [matchLagRef] at h
  | cons c cs => exact sub1_cons_match L c cs p h

theorem sub1_render (L : Int) (e : EvTerm) :
    ∀ (tail : List Char), wfEv e = true → tailOK tail = true →
      sub1 L (renderEv e ++ tail) = midEv L e ++ sub1 L tail := by
  induction e with
  | evar n =>
    intro tail hwf htail
    simp only [wfEv, Bool.and_eq_true] at hwf
    exact sub1_run L n tail (validName_all n hwf.1.1)
      (fun c hc => ⟨(tailOK_head tail htail c hc).1,
        (tailOK_head tail htail c hc).2.1⟩)
  | elag n d =>
    intro tail hwf htail
    simp only [wfEv, Bool.and_eq_true] at hwf
    have hm := matchLagRef_render n d tail hwf.1.1
      (by simpa using hwf.1.2) hwf.2
    have hre : renderEv (EvTerm.elag n d) ++ tail =
        n ++ '(' :: '-' :: (d ++ ')' :: tail) := by
      simp [renderEv, List.append_assoc]
    rw [hre, sub1_match L _ (n, -(digitsToNat d : Int), tail) hm]
    rfl
  | enum d =>
    intro tail hwf htail
    simp only [wfEv, Bool.and_eq_true] at hwf
    exact sub1_run L d tail (digits_all_run d hwf.2)
      (fun c hc => ⟨(tailOK_head tail htail c hc).1,
        (tailOK_head tail htail c hc).2.1⟩)
  | ebin op a b iha ihb =>
    intro tail hwf htail
    simp only [wfEv, Bool.and_eq_true] at hwf
    have hop : isOpCh op = true := hwf.1.1
    have h1 : tailOK (op :: (renderEv b ++ tail)) = true := by
      simp only [tailOK, decide_eq_true_eq]
      exact Or.inr hop
    have step : renderEv (EvTerm.ebin op a b) ++ tail =
        renderEv a ++ (op :: (renderEv b ++ tail)) := by
      simp [renderEv]
    rw [step, iha _ hwf.1.2 h1]
    rw [sub1_cons_nomatch L op _
      (matchLagRef_cons_notupper op _ (isOpCh_not_upper op hop))]
    rw [ihb tail hwf.2 htail]
    simp [midEv]
  | epar a iha =>
    intro tail hwf htail
    have h1 : tailOK (')' :: tail) = true := by
      simp only [tailOK, decide_eq_true_eq]
      exact Or.inl trivial
    have step : renderEv (EvTerm.epar a) ++ tail =
        '(' :: (renderEv a ++ (')' :: tail)) := by
      simp [renderEv]
    rw [step]
    rw [sub1_cons_nomatch L '(' _
      (matchLagRef_cons_notupper '(' _ (by decide))]
    rw [iha _ hwf h1]
    rw [sub1_cons_nomatch L ')' tail
      (matchLagRef_cons_notupper ')' tail (by decide))]
    simp [midEv]

theorem matchBare_cons_notupper (c : Char) (cs : List Char)
    (h : isUpperCh c = false) : matchBare (c :: cs) = none := by
  simp [matchBare, h]

theorem sub2_nil (L : Int) (w : Bool) : sub2 L w [] = [] := by
  cases w <;> rw [sub2]

theorem sub2_true_cons (L : Int) (c : Char) (cs : List Char) :
    sub2 L true (c :: cs) = c :: sub2 L (wordCh c) cs := by
  rw [sub2]

theorem sub2_cons_nomatch (L : Int) (c : Char) (cs : List Char)
    (h : matchBare (c :: cs) = none) :
    sub2 L false (c :: cs) = c :: sub2 L (wordCh c) cs := by
  rw [sub2]
  split
  · rename_i p hp
    rw [h] at hp
    cases hp
  · rfl

theorem sub2_cons_match (L : Int) (c : Char) (cs : List Char)
    (p : List Char × List Char) (h : matchBare (c :: cs) = some p) :
    sub2 L false (c :: cs) = repl2 L p.1 ++ sub2 L true p.2 := by
  rw [sub2]
  split
  · rename_i q hq
    rw [h] at hq
    injection hq with hq2
    subst hq2
    rfl
  · rename_i hq
    rw [h] at hq
    cases hq

theorem sub2_state_indep (L : Int) (t : List Char)
    (h : ∀ c, t.head? = some c → isUpperCh c = false) :
    sub2 L true t = sub2 L false t := by
  cases t with
  | nil => rw [sub2_nil, sub2_nil]
  | cons c cs =>
    rw [sub2_true_cons,
      sub2_cons_nomatch L c cs (matchBare_cons_notupper c cs (h c rfl))]

theorem run_word (c : Char) (h : isRunCh c = true) : wordCh c = true := by
  simp only [wordCh, decide_eq_true_eq]
  exact Or.inl h

theorem upper_run (c : Char) (h : isUpperCh c = true) : isRunCh c = true := by
  simp only [isRunCh, decide_eq_true_eq]
  exact Or.inl h

theorem digit_run (c : Char) (h : isDigitCh c = true) : isRunCh c = true := by
  simp only [isRunCh, decide_eq_true_eq]
  exact Or.inr (Or.inl h)

theorem digit_not_upper (c : Char) (h : isDigitCh c = true) :
    isUpperCh c = false := by
  simp only [isDigitCh, decide_eq_true_eq] at h
  simp only [isUpperCh, decide_eq_true_eq]
  rw [decide_eq_false_iff_not]
  omega

theorem isOpCh_not_word (c : Char) (h : isOpCh c = true) :
    wordCh c = false := by
  simp only [isOpCh, decide_eq_true_eq] at h
  rcases h with h | h | h | h <;> subst h <;> decide

theorem sub2_any_cons_notupper (L : Int) (c : Char) (cs : List Char)
    (h : isUpperCh c = false) (w : Bool) :
    sub2 L w (c :: cs) = c :: sub2 L (wordCh c) cs := by
  cases w
  · exact sub2_cons_nomatch L c cs (matchBare_cons_notupper c cs h)
  · exact sub2_true_cons L c cs

theorem sub2_true_word_run (L : Int) :
    ∀ (run : List Char), (∀ c ∈ run, wordCh c = true) →
      ∀ (tail : List Char), sub2 L true (run ++ tail) = run ++ sub2 L true tail := by
  intro run
  induction run with
  | nil => intro _ tail; rfl
  | cons c cs ih =>
    intro h tail
    rw [List.cons_append, sub2_true_cons, h c (List.mem_cons_self c cs),
      ih (fun x hx => h x (List.mem_cons_of_mem c hx)) tail]
    rfl

theorem sub2_word_run (L : Int) :
    ∀ (run : List Char),
      (∀ c ∈ run, isUpperCh c = false ∧ wordCh c = true) →
      run ≠ [] → ∀ (w : Bool) (tail : List Char),
        sub2 L w (run ++ tail) = run ++ sub2 L true tail := by
  intro run
  induction run with
  | nil => intro _ hne; cases hne rfl
  | cons c cs ih =>
    intro h _ w tail
    have hc := h c (List.mem_cons_self c cs)
    rw [List.cons_append, sub2_any_cons_notupper L c _ hc.1 w, hc.2]
    by_cases hcs : cs = []
    · subst hcs; simp
    · rw [ih (fun x hx => h x (List.mem_cons_of_mem c hx)) hcs true tail]
      rfl

theorem sub2_skip_notupper (L : Int) :
    ∀ (run : List Char), (∀ c ∈ run, isUpperCh c = false) →
      ∀ (w : Bool) (tail : List Char),
        ∃ w2, sub2 L w (run ++ tail) = run ++ sub2 L w2 tail := by
  intro run
  induction run with
  | nil => intro _ w tail; exact ⟨w, rfl⟩
  | cons c cs ih =>
    intro h w tail
    obtain ⟨w2, hw2⟩ := ih (fun x hx => h x (List.mem_cons_of_mem c hx))
      (wordCh c) tail
    refine ⟨w2, ?_⟩
    rw [List.cons_append, sub2_any_cons_notupper L c _
      (h c (List.mem_cons_self c cs)) w, hw2]
    rfl

theorem matchBare_name_quote (c : Char) (cs rest : List Char)
    (h1 : isUpperCh c = true) (h2 : cs.all isRunCh = true) :
    matchBare (c :: (cs ++ quoteCh :: rest)) = none := by
  simp only [matchBare, if_pos h1]
  rw [takeRun_append cs (quoteCh :: rest) h2
    (fun b hb => by injection hb with h; subst h; decide)]
  have hw : headIsWord (quoteCh :: rest) = false := by
    simp only [headIsWord]; decide
  have hq : startsWithL (quoteCh :: rest) [quoteCh] = true := by
    simp [startsWithL]
  simp [hw, hq]

theorem sub2_name_quote (L : Int) (w : Bool) (n rest : List Char)
    (hn : validNameL n = true) :
    sub2 L w (n ++ quoteCh :: rest) =
      n ++ quoteCh :: sub2 L false rest := by
  cases n with
  | nil => cases hn
  | cons c cs =>
    simp only [validNameL, Bool.and_eq_true] at hn
    have hword : ∀ x ∈ cs, wordCh x = true := by
      intro x hx
      refine run_word x ?_
      rw [List.all_eq_true] at hn
      exact hn.2 x hx
    have hstep : sub2 L w (c :: (cs ++ quoteCh :: rest)) =
        c :: sub2 L true (cs ++ quoteCh :: rest) := by
      cases w
      · rw [sub2_cons_nomatch L c _ (matchBare_name_quote c cs rest hn.1 hn.2),
          run_word c (upper_run c hn.1)]
      · rw [sub2_true_cons, run_word c (upper_run c hn.1)]
    rw [List.cons_append, hstep, sub2_true_word_run L cs hword (quoteCh :: rest),
      sub2_true_cons]
    have hq : wordCh quoteCh = false := by decide
    rw [hq]
    rfl

theorem natToCharsAux_notupper :
    ∀ (fuel n : Nat) (c : Char), c ∈ natToCharsAux fuel n →
      isUpperCh c = false := by
  intro fuel
  induction fuel with
  | zero => intro n c hc; cases hc
  | succ f ih =>
    intro n c hc
    simp only [natToCharsAux] at hc
    split at hc
    · cases hc
    · rw [List.mem_append] at hc
      rcases hc with hc | hc
      · exact ih _ c hc
      · rw [List.mem_singleton] at hc
        subst hc
        have h10 : n % 10 < 10 := Nat.mod_lt _ (by norm_num)
        set m := n % 10 with hm
        clear_value m
        interval_cases m <;> decide

theorem intToChars_notupper (T : Int) :
    ∀ c ∈ intToChars T, isUpperCh c = false := by
  intro c hc
  simp only [intToChars, natToChars] at hc
  split at hc
  · rw [List.mem_cons] at hc
    rcases hc with hc | hc
    · subst hc; decide
    · split at hc
      · rw [List.mem_singleton] at hc; subst hc; decide
      · exact natToCharsAux_notupper _ _ c hc
  · split at hc
    · rw [List.mem_singleton] at hc; subst hc; decide
    · exact natToCharsAux_notupper _ _ c hc

theorem sub2_vChunk (L : Int) (w : Bool) (n tail : List Char)
    (hn : validNameL n = true) :
    sub2 L w (vChunk n ++ tail) = vChunk n ++ sub2 L false tail := by
  have h0 : vChunk n ++ tail =
      'v' :: '[' :: quoteCh :: (n ++ quoteCh :: ']' :: tail) := by
    simp [vChunk]
  rw [h0, sub2_any_cons_notupper L 'v' _ (by decide) w]
  have hv : wordCh 'v' = true := by decide
  rw [hv, sub2_true_cons]
  have hb : wordCh '[' = false := by decide
  rw [hb, sub2_any_cons_notupper L quoteCh _ (by decide) false]
  have hq : wordCh quoteCh = false := by decide
  rw [hq, sub2_name_quote L false n (']' :: tail) hn,
    sub2_any_cons_notupper L ']' tail (by decide) false]
  have hr : wordCh ']' = false := by decide
  rw [hr]
  simp [vChunk]

theorem sub2_lagChunk (L : Int) (w : Bool) (n tail : List Char) (T : Int)
    (hn : validNameL n = true) :
    sub2 L w (lagChunk n T ++ tail) = lagChunk n T ++ sub2 L false tail := by
  have h0 : lagChunk n T ++ tail =
      ['_', 'l', 'a', 'g', '(', quoteCh] ++
        (n ++ quoteCh :: ',' :: ' ' :: (intToChars T ++ ')' :: tail)) := by
    simp [lagChunk]
  rw [h0]
  obtain ⟨w2, hw2⟩ := sub2_skip_notupper L ['_', 'l', 'a', 'g', '(', quoteCh]
    (by decide) w (n ++ quoteCh :: ',' :: ' ' :: (intToChars T ++ ')' :: tail))
  rw [hw2, sub2_name_quote L w2 n _ hn,
    sub2_any_cons_notupper L ',' _ (by decide) false]
  have hc : wordCh ',' = false := by decide
  rw [hc, sub2_any_cons_notupper L ' ' _ (by decide) false]
  have hs : wordCh ' ' = false := by decide
  rw [hs]
  obtain ⟨w3, hw3⟩ := sub2_skip_notupper L (intToChars T)
    (intToChars_notupper T) false (')' :: tail)
  rw [hw3, sub2_any_cons_notupper L ')' tail (by decide) w3]
  have hp : wordCh ')' = false := by decide
  rw [hp]
  simp [lagChunk]

theorem matchBare_render (n tail : List Char) (hn : validNameL n = true)
    (ht : tailOK tail = true) : matchBare (n ++ tail) = some (n, tail) := by
  cases n with
  | nil => cases hn
  | cons c cs =>
    simp only [validNameL, Bool.and_eq_true] at hn
    simp only [List.cons_append, matchBare, if_pos hn.1]
    rw [takeRun_append cs tail hn.2
      (fun b hb => (tailOK_head tail ht b hb).1)]
    cases tail with
    | nil => rfl
    | cons b bs =>
      have hb := tailOK_head (b :: bs) ht b rfl
      have h1 : headIsWord (b :: bs) = false := by
        simp [headIsWord, hb.2.2.1]
      have h2 : startsWithL (b :: bs) [quoteCh] = false := by
        simp [startsWithL, hb.2.2.2.1]
      have h3 : (b :: bs).dropWhile isSpaceCh = b :: bs := by
        rw [List.dropWhile_cons_of_neg]
        simp [hb.2.2.2.2.1]
      have h4 : headIsParenBracket (b :: bs) = false := by
        simp [headIsParenBracket, hb.2.1, hb.2.2.2.2.2.1]
      simp [h1, h2, h3, h4]

theorem sub2_match (L : Int) (l : List Char) (p : List Char × List Char)
    (h : matchBare l = some p) :
    sub2 L false l = repl2 L p.1 ++ sub2 L true p.2 := by
  cases l with
  | nil => simp [matchBare] at h
  | cons c cs => exact sub2_cons_match L c cs p h

theorem sub2_mid (L : Int) (e : EvTerm) :
    ∀ (tail : List Char), wfEv e = true → tailOK tail = true →
      sub2 L false (midEv L e ++ tail) = pyEv L e ++ sub2 L false tail := by
  induction e with
  | evar n =>
    intro tail hwf htail
    simp only [wfEv, Bool.and_eq_true] at hwf
    rw [show midEv L (EvTerm.evar n) = n from rfl,
      sub2_match L (n ++ tail) (n, tail)
        (matchBare_render n tail hwf.1.1 htail),
      sub2_state_indep L tail
        (fun c hc => (tailOK_head tail htail c hc).2.2.2.2.2.2)]
    rfl
  | elag n d =>
    intro tail hwf htail
    simp only [wfEv, Bool.and_eq_true] at hwf
    show sub2 L false (repl1 L n (-(digitsToNat d : Int)) ++ tail) =
      repl1 L n (-(digitsToNat d : Int)) ++ sub2 L false tail
    simp only [repl1]
    split
    · exact sub2_vChunk L false n tail hwf.1.1
    · exact sub2_lagChunk L false n tail _ hwf.1.1
  | enum d =>
    intro tail hwf htail
    simp only [wfEv, Bool.and_eq_true] at hwf
    have hd : ∀ c ∈ d, isUpperCh c = false ∧ wordCh c = true := by
      intro c hc
      rw [List.all_eq_true] at hwf
      have hdg := hwf.2 c hc
      exact ⟨digit_not_upper c hdg, run_word c (digit_run c hdg)⟩
    have hne : d ≠ [] := by simpa using hwf.1
    rw [show midEv L (EvTerm.enum d) = d from rfl,
      sub2_word_run L d hd hne false tail,
      sub2_state_indep L tail
        (fun c hc => (tailOK_head tail htail c hc).2.2.2.2.2.2)]
    rfl
  | ebin op a b iha ihb =>
    intro tail hwf htail
    simp only [wfEv, Bool.and_eq_true] at hwf
    have hop : isOpCh op = true := hwf.1.1
    have h1 : tailOK (op :: (midEv L b ++ tail)) = true := by
      simp only [tailOK, decide_eq_true_eq]
      exact Or.inr hop
    have step : midEv L (EvTerm.ebin op a b) ++ tail =
        midEv L a ++ (op :: (midEv L b ++ tail)) := by
      simp [midEv]
    rw [step, iha _ hwf.1.2 h1,
      sub2_any_cons_notupper L op _ (isOpCh_not_upper op hop) false,
      isOpCh_not_word op hop, ihb tail hwf.2 htail]
    simp [pyEv]
  | epar a iha =>
    intro tail hwf htail
    have h1 : tailOK (')' :: tail) = true := by
      simp only [tailOK, decide_eq_true_eq]
      exact Or.inl trivial
    have step : midEv L (EvTerm.epar a) ++ tail =
        '(' :: (midEv L a ++ (')' :: tail)) := by
      simp [midEv]
    rw [step, sub2_any_cons_notupper L '(' _ (by decide) false]
    have hw : wordCh '(' = false := by decide
    rw [hw, iha _ hwf h1, sub2_any_cons_notupper L ')' tail (by decide) false]
    have hw2 : wordCh ')' = false := by decide
    rw [hw2]
    simp [pyEv]

theorem convertLags_render (L : Int) (e : EvTerm) (h : wfEv e = true) :
    convertLagsSimpleL (renderEv e) L = pyEv L e := by
  show sub2 L false (sub1 L (renderEv e)) = pyEv L e
  have h1 : sub1 L (renderEv e) = midEv L e := by
    have hx := sub1_render L e [] h rfl
    rw [List.append_nil] at hx
    rw [hx, sub1_nil, List.append_nil]
  rw [h1]
  have h2 := sub2_mid L e [] h rfl
  rw [List.append_nil] at h2
  rw [h2, sub2_nil, List.append_nil]

theorem isRunCh_not_paren (c : Char) (h : isRunCh c = true) :
    c ≠ '(' ∧ c ≠ ')' := by
  constructor <;> intro he <;> subst he <;> exact absurd h (by decide)

theorem extractBalAux_plain :
    ∀ (cs : List Char), (∀ c ∈ cs, c ≠ '(' ∧ c ≠ ')') →
      ∀ (tail : List Char) (d : Nat) (acc : List Char),
        extractBalAux (cs ++ tail) d acc = extractBalAux tail d (acc ++ cs) := by
  intro cs
  induction cs with
  | nil => intro _ tail d acc; simp
  | cons c cc ih =>
    intro h tail d acc
    have hc := h c (List.mem_cons_self c cc)
    rw [List.cons_append]
    show extractBalAux (c :: (cc ++ tail)) d acc = _
    rw [extractBalAux]
    rw [if_neg (by simpa using hc.2), if_neg (by simpa using hc.1)]
    rw [ih (fun x hx => h x (List.mem_cons_of_mem c hx)) tail d (acc ++ [c])]
    simp

theorem extractBalAux_render (e : EvTerm) (hwf : wfEv e = true) :
    ∀ (tail : List Char) (d : Nat) (acc : List Char), 1 ≤ d →
      extractBalAux (renderEv e ++ tail) d acc =
        extractBalAux tail d (acc ++ renderEv e) := by
  induction e with
  | evar n =>
    intro tail d acc _
    refine extractBalAux_plain n ?_ tail d acc
    intro c hc
    simp only [wfEv, Bool.and_eq_true] at hwf
    have := validName_all n hwf.1.1
    rw [List.all_eq_true] at this
    exact isRunCh_not_paren c (this c hc)
  | elag n d =>
    intro tail dep acc hdep
    simp only [wfEv, Bool.and_eq_true] at hwf
    have hre : renderEv (EvTerm.elag n d) ++ tail =
        n ++ ('(' :: '-' :: (d ++ (')' :: tail))) := by
      simp [renderEv]
    rw [hre]
    rw [extractBalAux_plain n
      (fun c hc => isRunCh_not_paren c (by
        have := validName_all n hwf.1.1
        rw [List.all_eq_true] at this
        exact this c hc)) _ dep acc]
    rw [show extractBalAux ('(' :: '-' :: (d ++ ')' :: tail)) dep (acc ++ n) =
        extractBalAux ('-' :: (d ++ ')' :: tail)) (dep + 1) (acc ++ n ++ ['(']) by
      rw [extractBalAux]; simp]
    rw [show extractBalAux ('-' :: (d ++ ')' :: tail)) (dep + 1)
          (acc ++ n ++ ['(']) =
        extractBalAux (d ++ ')' :: tail) (dep + 1) (acc ++ n ++ ['('] ++ ['-']) by
      rw [extractBalAux]; simp]
    rw [extractBalAux_plain d
      (fun c hc => isRunCh_not_paren c (digit_run c (by
        rw [List.all_eq_true] at hwf
        exact hwf.2 c hc))) _ (dep + 1) _]
    rw [show extractBalAux (')' :: tail) (dep + 1)
          (acc ++ n ++ ['('] ++ ['-'] ++ d) =
        extractBalAux tail dep (acc ++ n ++ ['('] ++ ['-'] ++ d ++ [')']) by
      rw [extractBalAux]
      rw [if_pos rfl, if_neg (by omega)]
      congr 1]
    congr 1
    simp [renderEv]
  | enum d =>
    intro tail dep acc _
    refine extractBalAux_plain d ?_ tail dep acc
    intro c hc
    simp only [wfEv, Bool.and_eq_true] at hwf
    rw [List.all_eq_true] at hwf
    exact isRunCh_not_paren c (digit_run c (hwf.2 c hc))
  | ebin op a b iha ihb =>
    intro tail dep acc hdep
    simp only [wfEv, Bool.and_eq_true] at hwf
    have hre : renderEv (EvTerm.ebin op a b) ++ tail =
        renderEv a ++ (op :: (renderEv b ++ tail)) := by
      simp [renderEv]
    rw [hre, iha hwf.1.2 _ dep acc hdep]
    have hop : isOpCh op = true := hwf.1.1
    have hnp : op ≠ '(' ∧ op ≠ ')' := by
      simp only [isOpCh, decide_eq_true_eq] at hop
      rcases hop with h | h | h | h <;> subst h <;> exact ⟨by decide, by decide⟩
    rw [show extractBalAux (op :: (renderEv b ++ tail)) dep (acc ++ renderEv a) =
        extractBalAux (renderEv b ++ tail) dep (acc ++ renderEv a ++ [op]) by
      rw [extractBalAux]
      rw [if_neg (by simpa using hnp.2), if_neg (by simpa using hnp.1)]]
    rw [ihb hwf.2 tail dep _ hdep]
    congr 1
    simp [renderEv]
  | epar a iha =>
    intro tail dep acc hdep
    have hre : renderEv (EvTerm.epar a) ++ tail =
        '(' :: (renderEv a ++ (')' :: tail)) := by
      simp [renderEv]
    rw [hre]
    rw [show extractBalAux ('(' :: (renderEv a ++ ')' :: tail)) dep acc =
        extractBalAux (renderEv a ++ ')' :: tail) (dep + 1) (acc ++ ['(']) by
      rw [extractBalAux]; simp]
    rw [iha hwf _ (dep + 1) _ (by omega)]
    rw [show extractBalAux (')' :: tail) (dep + 1) (acc ++ ['('] ++ renderEv a) =
        extractBalAux tail dep (acc ++ ['('] ++ renderEv a ++ [')']) by
      rw [extractBalAux]
      rw [if_pos rfl, if_neg (by omega)]
      congr 1]
    congr 1
    simp [renderEv]

theorem extractBal_render_top (e : EvTerm) (hwf : wfEv e = true)
    (rest : List Char) :
    extractBalAux (renderEv e ++ ')' :: rest) 1 [] = (renderEv e, rest) := by
  rw [extractBalAux_render e hwf (')' :: rest) 1 [] (le_refl 1)]
  rw [extractBalAux]
  rw [if_pos rfl, if_pos rfl]
  simp

theorem convertDlog_render (e : EvTerm) (rest : List Char)
    (h : wfEv e = true) :
    convertDlogL ('d' :: 'l' :: 'o' :: 'g' :: '(' ::
        (renderEv e ++ ')' :: rest)) =
      "(np.log(".data ++ convertLagsSimpleL (renderEv e) 0 ++
        ") - np.log(".data ++ convertLagsSimpleL (renderEv e) 1 ++
        "))".data ++ convertDlogL rest := by
  rw [convertDlogL]
  rw [if_pos (by decide)]
  simp only [extractBal_render_top e h rest]

/-- Decimal rendering of a rational (only to make `printPy` total; transpiled
literals are integers in practice). -/
def ratToChars (q : ℚ) : List Char :=
  if q.den = 1 then intToChars q.num
  else intToChars q.num ++ '/' :: natToChars q.den

/-- The Python source text the transpiler emits for an expression AST:
`v[...]` / `_lag(...)` chunks for variables, `np.log` / `np.exp` calls,
parenthesized spaced binary operations. -/
def printPy : PExpr → List Char
  | .lit q => ratToChars q
  | .pvar name => vChunk name.data
  | .plag name k => lagChunk name.data k
  | .pneg a => '-' :: printPy a
  | .padd a b => '(' :: (printPy a ++ ' ' :: '+' :: ' ' :: printPy b ++ [')'])
  | .psub a b => '(' :: (printPy a ++ ' ' :: '-' :: ' ' :: printPy b ++ [')'])
  | .pmul a b => '(' :: (printPy a ++ ' ' :: '*' :: ' ' :: printPy b ++ [')'])
  | .pdivE a b => '(' :: (printPy a ++ ' ' :: '/' :: ' ' :: printPy b ++ [')'])
  | .plogE a => "np.log(".data ++ printPy a ++ [')']
  | .pexpE a => "np.exp(".data ++ printPy a ++ [')']

/-- The AST of the expansion of `dlog(PCE)`:
`(np.log(v[...PCE...]) - np.log(_lag(...PCE..., 1)))`. -/
def pceExpr : PExpr :=
  PExpr.psub (PExpr.plogE (PExpr.pvar "PCE"))
    (PExpr.plogE (PExpr.plag "PCE" 1))

/-- A one-column frame with `PCE[0] = 100`, `PCE[1] = 120` (the P6 store:
`t = 1`, so `PCE[t] = 120` and `PCE[t-1] = 100`). -/
def framePCE : Frame K where
  cols := ["PCE"]
  n := 2
  entry := fun name t =>
    if name = "PCE" ∧ t = 0 then Val.num 100
    else if name = "PCE" ∧ t = 1 then Val.num 120 else Val.nan

theorem convertDlogL_nil : convertDlogL [] = [] := by
  rw [convertDlogL.eq_def]

theorem evalP_pce (klog kexp : K → K) :
    evalP klog kexp (initV (framePCE : Frame K) 1) framePCE 1 pceExpr =
      some (Val.num (klog 120 - klog 100)) := by
  have h120 : (0:K) < 120 := by norm_num
  have h100 : (0:K) < 100 := by norm_num
  norm_num [pceExpr, evalP, initV, framePCE, flag, fget, Val.logV, Val.sub,
    h120, h100]

theorem pyEv_lag_compose (n d : List Char) (h : 1 ≤ digitsToNat d) :
    pyEv 0 (EvTerm.elag n d) = lagChunk n (digitsToNat d) ∧
    pyEv 1 (EvTerm.elag n d) = lagChunk n ((digitsToNat d : Int) + 1) := by
  constructor
  · show repl1 0 n (-(digitsToNat d : Int)) = _
    rw [repl1, if_neg (by omega)]
    congr 1
    omega
  · show repl1 1 n (-(digitsToNat d : Int)) = _
    rw [repl1, if_neg (by omega)]
    congr 1
    omega

/-- C5: `_convert_dlog` delimits `EXPR` in `dlog(EXPR)` by balanced-parenthesis
matching and expands it to `(np.log(EXPR at natural periods) - np.log(EXPR
with every contained bare variable lagged one more period))` — the two copies
are `_convert_lags_simple` at lags 0 and 1; an explicit lag `VAR(-d)` inside
`EXPR` composes additively with the implicit extra lag (`_lag(VAR, d)`, a
`t-d` reference, in the current copy and `_lag(VAR, d+1)`, a `t-d-1`
reference, in the lagged copy, since `_lag(var, k, t) = _get(var, t - k)`);
and the transpilation of `dlog(PCE)` evaluated at `t = 1` over a store with
`PCE[0] = 100`, `PCE[1] = 120` yields `log 120 - log 100`. -/
theorem c5_dlog_expansion (klog kexp : K → K) :
    (∀ (e : EvTerm) (rest : List Char), wfEv e = true →
      convertDlogL ("dlog(".data ++ renderEv e ++ ')' :: rest) =
        "(np.log(".data ++ pyEv 0 e ++ ") - np.log(".data ++
          pyEv 1 e ++ "))".data ++ convertDlogL rest) ∧
    (∀ (n d : List Char), 1 ≤ digitsToNat d →
      pyEv 0 (EvTerm.elag n d) = lagChunk n (digitsToNat d) ∧
      pyEv 1 (EvTerm.elag n d) = lagChunk n ((digitsToNat d : Int) + 1)) ∧
    (∀ (F : Frame K) (var : String) (k t : Int),
      flag F var k t = fget F var (t - k)) ∧
    convertDlogL ("dlog(PCE)".data) = printPy pceExpr ∧
    evalP klog kexp (initV (framePCE : Frame K) 1) framePCE 1 pceExpr =
      some (Val.num (klog 120 - klog 100)) := by
  refine ⟨?_, fun n d h => pyEv_lag_compose n d h,
    fun F var k t => rfl, ?_, evalP_pce klog kexp⟩
  · intro e rest h
    have hs : "dlog(".data ++ renderEv e ++ ')' :: rest =
        'd' :: 'l' :: 'o' :: 'g' :: '(' :: (renderEv e ++ ')' :: rest) := rfl
    rw [hs, convertDlog_render e rest h, convertLags_render 0 e h,
      convertLags_render 1 e h]
  · have h : wfEv (EvTerm.evar "PCE".data) = true := by decide
    have hs : "dlog(PCE)".data =
        'd' :: 'l' :: 'o' :: 'g' :: '(' ::
          (renderEv (EvTerm.evar "PCE".data) ++ ')' :: []) := rfl
    rw [hs, convertDlog_render _ _ h, convertLags_render 0 _ h,
      convertLags_render 1 _ h, convertDlogL_nil, List.append_nil]
    decide

/-- The witness term `RGDP(-12)/(CONS+3)` inside `dlog(...)`. -/
def c5eW : EvTerm :=
  EvTerm.ebin '/' (EvTerm.elag "RGDP".data ['1', '2'])
    (EvTerm.epar (EvTerm.ebin '+' (EvTerm.evar "CONS".data)
      (EvTerm.enum ['3'])))

/-- Witness for `c5_dlog_expansion` at `K := ℚ`: the expansion on the
nested term `dlog(RGDP(-12)/(CONS+3))`, additive lag composition for
`RGDP(-12)` (lag 12 in the current copy, 13 in the lagged copy), and the P6
evaluation instance. -/
theorem c5_witness :
    (wfEv c5eW = true ∧
      convertDlogL ("dlog(".data ++ renderEv c5eW ++ ')' :: []) =
        "(np.log(".data ++ pyEv 0 c5eW ++ ") - np.log(".data ++
          pyEv 1 c5eW ++ "))".data) ∧
    (1 ≤ digitsToNat ['1', '2'] ∧
      pyEv 0 (EvTerm.elag "RGDP".data ['1', '2']) =
        lagChunk "RGDP".data 12 ∧
      pyEv 1 (EvTerm.elag "RGDP".data ['1', '2']) =
        lagChunk "RGDP".data 13) ∧
    evalP (fun x : ℚ => x) (fun x : ℚ => x)
        (initV (framePCE : Frame ℚ) 1) framePCE 1 pceExpr =
      some (Val.num 20) := by
  obtain ⟨h1, h2, h3, h4, h5⟩ :=
    @c5_dlog_expansion ℚ _ (fun x => x) (fun x => x)
  obtain ⟨ha, hb⟩ := h2 "RGDP".data ['1', '2'] (by decide)
  refine ⟨⟨by decide, ?_⟩, ⟨by decide, ?_, ?_⟩, ?_⟩
  · rw [h1 c5eW [] (by decide), convertDlogL_nil, List.append_nil]
  · rw [ha]
    have hd : ((digitsToNat ['1', '2'] : Nat) : Int) = 12 := by decide
    rw [hd]
  · rw [hb]
    have hd : ((digitsToNat ['1', '2'] : Nat) : Int) + 1 = 13 := by decide
    rw [hd]
  · have h := h5
    norm_num at h
    exact h
